import Mathlib

set_option maxHeartbeats 1000000

/-!
Shallow embedding of `src/smart_ptrs.h`: a reference-counted owning handle
(`SharedPtr`) and an observer handle (`WeakPtr`) over a shared control block.

Pointers are modelled as `Option Nat` (ids; `none` is the null pointer).  The
heap records the allocated control blocks (an association list keyed by block
id), which value ids are live, and ghost event counters saying how many times
each value id / block id has been handed to `delete`.  The `size_t` counters
are modelled as unbounded `Nat`: overflow would need `2 ^ 64` simultaneously
live handles, and on every reachable state the counters are proved positive
before each decrement, so truncated subtraction agrees with the source.
-/

/-- `SharedPtr::ControlBlock` (src/smart_ptrs.h lines 84-88): the two counters.
`val` is ghost specification data recording which value id the handles sharing
this block point at; no modelled operation ever reads it. -/
structure ControlBlock where
  shared_count : Nat
  weak_count : Nat
  val : Nat
deriving DecidableEq, Repr

/-- `class SharedPtr` data members (lines 90-91): `ptr_` and `block_`. -/
structure SharedPtr where
  ptr : Option Nat
  block : Option Nat
deriving DecidableEq, Repr

/-- `class WeakPtr` data members (lines 178-179): `block_` and `ptr_`. -/
structure WeakPtr where
  block : Option Nat
  ptr : Option Nat
deriving DecidableEq, Repr

/-- The modelled heap: allocated control blocks, live values, allocation
cursors, and ghost delete-event counters. -/
structure Heap where
  blocks : List (Nat × ControlBlock)
  nextBlock : Nat
  values : Nat → Bool
  nextValue : Nat
  valueFrees : Nat → Nat
  blockFrees : Nat → Nat

def lookupSlot {α : Type} (l : List (Nat × α)) (i : Nat) : Option α :=
  match l with
  | [] => none
  | e :: t => if e.1 = i then some e.2 else lookupSlot t i

def eraseSlot {α : Type} (l : List (Nat × α)) (i : Nat) : List (Nat × α) :=
  l.filter (fun e => e.1 != i)

def setSlot {α : Type} (l : List (Nat × α)) (i : Nat) (a : α) : List (Nat × α) :=
  (i, a) :: eraseSlot l i

/-- Dereference a `ControlBlock*`. -/
def getBlock (h : Heap) (b : Nat) : Option ControlBlock :=
  lookupSlot h.blocks b

/-- Store through a `ControlBlock*` (mutating a counter of block `b`). -/
def setBlock (h : Heap) (b : Nat) (cb : ControlBlock) : Heap :=
  { h with blocks := setSlot h.blocks b cb }

/-- `new ControlBlock` at a fresh id. -/
def allocBlock (h : Heap) (cb : ControlBlock) : Nat × Heap :=
  (h.nextBlock,
   { h with blocks := (h.nextBlock, cb) :: h.blocks, nextBlock := h.nextBlock + 1 })

/-- `delete block_`: remove the block and record the delete event. -/
def freeBlock (h : Heap) (b : Nat) : Heap :=
  { h with
    blocks := eraseSlot h.blocks b
    blockFrees := (fun x => if x = b then h.blockFrees x + 1 else h.blockFrees x) }

/-- `delete ptr_`: deleting a null pointer is a no-op; deleting value `v`
marks it dead and records the delete event. -/
def freeValue (h : Heap) (p : Option Nat) : Heap :=
  match p with
  | none => h
  | some v =>
      { h with
        values := (fun x => if x = v then false else h.values x)
        valueFrees := (fun x => if x = v then h.valueFrees x + 1 else h.valueFrees x) }

/-- `new std::string(...)` performed by the calling code: a fresh live value. -/
def allocValue (h : Heap) : Nat × Heap :=
  (h.nextValue,
   { h with
     values := (fun x => if x = h.nextValue then true else h.values x)
     nextValue := h.nextValue + 1 })

/-- `SharedPtr::Release` (lines 94-106).  Returns the updated handle fields
(every caller discards or overwrites them) and the updated heap.  A dangling
`block_` (the block id not in the heap) would be undefined behaviour in the
source; the model leaves the heap unchanged there, and that case is proved
unreachable from well-formed states. -/
def sharedRelease (hd : SharedPtr) (h : Heap) : SharedPtr × Heap :=
  match hd.block with
  | none => (hd, h)
  | some b =>
    match getBlock h b with
    | none => (hd, h)
    | some cb =>
      let cb1 : ControlBlock := { cb with shared_count := cb.shared_count - 1 }
      if cb1.shared_count = 0 then
        let h1 := freeValue (setBlock h b cb1) hd.ptr
        if cb1.weak_count = 0 then
          ({ ptr := none, block := none }, freeBlock h1 b)
        else
          ({ ptr := none, block := hd.block }, h1)
      else
        (hd, setBlock h b cb1)

/-- `SharedPtr(std::string* ptr)` (lines 12-17): non-null pointer allocates a
fresh control block and increments its (zero-initialised) shared count. -/
def sharedFromRaw (p : Option Nat) (h : Heap) : SharedPtr × Heap :=
  match p with
  | none => ({ ptr := none, block := none }, h)
  | some v =>
    let a := allocBlock h { shared_count := 0 + 1, weak_count := 0, val := v }
    ({ ptr := some v, block := some a.1 }, a.2)

/-- `SharedPtr(const SharedPtr&)` (lines 19-23); also the copying part of copy
assignment (lines 35-39): copy both fields, increment the shared count when
the block pointer is non-null. -/
def sharedCopy (other : SharedPtr) (h : Heap) : SharedPtr × Heap :=
  match other.block with
  | none => ({ ptr := other.ptr, block := none }, h)
  | some b =>
    match getBlock h b with
    | none => ({ ptr := other.ptr, block := some b }, h)
    | some cb =>
        ({ ptr := other.ptr, block := some b },
         setBlock h b { cb with shared_count := cb.shared_count + 1 })

/-- `SharedPtr(SharedPtr&&)` (lines 27-30): pure field transfer, the source
is nulled out; no heap access at all.  Returns (destination, emptied source). -/
def sharedMoveFields (other : SharedPtr) : SharedPtr × SharedPtr :=
  ({ ptr := other.ptr, block := other.block }, { ptr := none, block := none })

/-- `SharedPtr(const WeakPtr&)` (lines 194-203): upgrade, guarded by
`block_ != nullptr && shared_count_ > 0`. -/
def sharedFromWeak (w : WeakPtr) (h : Heap) : SharedPtr × Heap :=
  match w.block with
  | none => ({ ptr := none, block := none }, h)
  | some b =>
    match getBlock h b with
    | none => ({ ptr := none, block := none }, h)
    | some cb =>
      if 0 < cb.shared_count then
        ({ ptr := w.ptr, block := some b },
         setBlock h b { cb with shared_count := cb.shared_count + 1 })
      else
        ({ ptr := none, block := none }, h)

/-- `SharedPtr::Reset` (lines 71-81): release, then either adopt the new
pointer with a fresh control block whose shared count is set to 1, or become
empty. -/
def sharedReset (hd : SharedPtr) (p : Option Nat) (h : Heap) : SharedPtr × Heap :=
  let r := sharedRelease hd h
  match p with
  | none => ({ ptr := none, block := none }, r.2)
  | some v =>
    let a := allocBlock r.2 { shared_count := 1, weak_count := 0, val := v }
    ({ ptr := some v, block := some a.1 }, a.2)

/-- `WeakPtr(std::string* ptr)` (lines 113-117): stores the pointer; the
constructor body tests `block_`, which still holds its default member
initialiser `nullptr` (line 178), so the branch never fires and no control
block is ever attached. -/
def weakFromRaw (p : Option Nat) (h : Heap) : WeakPtr × Heap :=
  let b0 : Option Nat := none
  match b0 with
  | some b =>
    match getBlock h b with
    | none => ({ block := some b, ptr := p }, h)
    | some cb => ({ block := some b, ptr := p }, setBlock h b { cb with weak_count := 1 })
  | none => ({ block := none, ptr := p }, h)

/-- `WeakPtr(const WeakPtr&)` (lines 119-123); also the copying part of weak
copy assignment (lines 143-148). -/
def weakCopy (other : WeakPtr) (h : Heap) : WeakPtr × Heap :=
  match other.block with
  | none => ({ block := none, ptr := other.ptr }, h)
  | some b =>
    match getBlock h b with
    | none => ({ block := some b, ptr := other.ptr }, h)
    | some cb =>
        ({ block := some b, ptr := other.ptr },
         setBlock h b { cb with weak_count := cb.weak_count + 1 })

/-- `WeakPtr(const SharedPtr&)` (lines 130-134). -/
def weakFromShared (sp : SharedPtr) (h : Heap) : WeakPtr × Heap :=
  match sp.block with
  | none => ({ block := none, ptr := sp.ptr }, h)
  | some b =>
    match getBlock h b with
    | none => ({ block := some b, ptr := sp.ptr }, h)
    | some cb =>
        ({ block := some b, ptr := sp.ptr },
         setBlock h b { cb with weak_count := cb.weak_count + 1 })

/-- `WeakPtr(WeakPtr&&)` (lines 125-128): pure field transfer. -/
def weakMoveFields (other : WeakPtr) : WeakPtr × WeakPtr :=
  ({ block := other.block, ptr := other.ptr }, { block := none, ptr := none })

/-- `WeakPtr::Release` (lines 181-190): decrement the weak count, free the
block when both counters are zero, null out both fields. -/
def weakRelease (w : WeakPtr) (h : Heap) : WeakPtr × Heap :=
  match w.block with
  | none => ({ block := none, ptr := none }, h)
  | some b =>
    match getBlock h b with
    | none => ({ block := none, ptr := none }, h)
    | some cb =>
      let cb1 : ControlBlock := { cb with weak_count := cb.weak_count - 1 }
      let h1 := setBlock h b cb1
      if cb1.weak_count = 0 ∧ cb1.shared_count = 0 then
        ({ block := none, ptr := none }, freeBlock h1 b)
      else
        ({ block := none, ptr := none }, h1)

/-- `WeakPtr::Lock` (lines 166-171): guarded upgrade through
`SharedPtr(const WeakPtr&)`, otherwise an empty handle and no effect. -/
def weakLock (w : WeakPtr) (h : Heap) : SharedPtr × Heap :=
  match w.block with
  | none => ({ ptr := none, block := none }, h)
  | some b =>
    match getBlock h b with
    | none => ({ ptr := none, block := none }, h)
    | some cb =>
      if 0 < cb.shared_count then sharedFromWeak w h
      else ({ ptr := none, block := none }, h)

/-- `WeakPtr::IsExpired` (lines 173-175):
`block_ == nullptr || block_->shared_count_ == 0`; a pure query. -/
def weakIsExpired (w : WeakPtr) (h : Heap) : Bool :=
  match w.block with
  | none => true
  | some b =>
    match getBlock h b with
    | none => true
    | some cb => cb.shared_count == 0

/-- A program state: the heap plus the live handle variables, each kind keyed
by a slot id (the variable's address, used for the `this != &other` checks). -/
structure Machine where
  heap : Heap
  shared : List (Nat × SharedPtr)
  weak : List (Nat × WeakPtr)

/-- The API surface as trace events.  Construction events name a fresh slot;
assignment / destruction events name existing slots.  `wNewRaw` carries the
arbitrary raw pointer handed to the degenerate `WeakPtr(std::string*)`
constructor.  The pure queries (`Get`, dereference, `IsExpired`) do not change
state and need no event. -/
inductive Op where
  | sNewNull (i : Nat)
  | sNewRaw (i : Nat)
  | sCopy (i j : Nat)
  | sMove (i j : Nat)
  | sFromWeak (i w : Nat)
  | sCopyAssign (i j : Nat)
  | sMoveAssign (i j : Nat)
  | sReset (i : Nat)
  | sResetRaw (i : Nat)
  | sDestroy (i : Nat)
  | wNew (i : Nat)
  | wNewRaw (i : Nat) (p : Option Nat)
  | wCopy (i j : Nat)
  | wMove (i j : Nat)
  | wFromShared (i j : Nat)
  | wCopyAssign (i j : Nat)
  | wMoveAssign (i j : Nat)
  | wDestroy (i : Nat)
  | wLock (i w : Nat)

/-- One step of the trace machine.  Events whose slot preconditions fail (a
construction into an occupied slot, or an operation on a missing slot) are
no-ops: they do not correspond to a C++ program.  The `i = j` tests mirror the
`this != &other` guards of the four assignment operators (lines 33, 45, 141,
154). -/
def step (o : Op) (m : Machine) : Machine :=
  match o with
  | .sNewNull i =>
    match lookupSlot m.shared i with
    | some _ => m
    | none =>
      let r := sharedFromRaw none m.heap
      { m with heap := r.2, shared := setSlot m.shared i r.1 }
  | .sNewRaw i =>
    match lookupSlot m.shared i with
    | some _ => m
    | none =>
      let a := allocValue m.heap
      let r := sharedFromRaw (some a.1) a.2
      { m with heap := r.2, shared := setSlot m.shared i r.1 }
  | .sCopy i j =>
    match lookupSlot m.shared i, lookupSlot m.shared j with
    | none, some src =>
      let r := sharedCopy src m.heap
      { m with heap := r.2, shared := setSlot m.shared i r.1 }
    | _, _ => m
  | .sMove i j =>
    match lookupSlot m.shared i, lookupSlot m.shared j with
    | none, some src =>
      let r := sharedMoveFields src
      { m with shared := setSlot (setSlot m.shared j r.2) i r.1 }
    | _, _ => m
  | .sFromWeak i w =>
    match lookupSlot m.shared i, lookupSlot m.weak w with
    | none, some wp =>
      let r := sharedFromWeak wp m.heap
      { m with heap := r.2, shared := setSlot m.shared i r.1 }
    | _, _ => m
  | .sCopyAssign i j =>
    if i = j then m else
    match lookupSlot m.shared i, lookupSlot m.shared j with
    | some dst, some src =>
      let r1 := sharedRelease dst m.heap
      let r2 := sharedCopy src r1.2
      { m with heap := r2.2, shared := setSlot m.shared i r2.1 }
    | _, _ => m
  | .sMoveAssign i j =>
    if i = j then m else
    match lookupSlot m.shared i, lookupSlot m.shared j with
    | some dst, some src =>
      let r1 := sharedRelease dst m.heap
      let cleared : SharedPtr := { ptr := none, block := none }
      let moved : SharedPtr := { ptr := src.ptr, block := src.block }
      { m with heap := r1.2, shared := setSlot (setSlot m.shared j cleared) i moved }
    | _, _ => m
  | .sReset i =>
    match lookupSlot m.shared i with
    | some dst =>
      let r := sharedReset dst none m.heap
      { m with heap := r.2, shared := setSlot m.shared i r.1 }
    | none => m
  | .sResetRaw i =>
    match lookupSlot m.shared i with
    | some dst =>
      let a := allocValue m.heap
      let r := sharedReset dst (some a.1) a.2
      { m with heap := r.2, shared := setSlot m.shared i r.1 }
    | none => m
  | .sDestroy i =>
    match lookupSlot m.shared i with
    | some dst =>
      let r := sharedRelease dst m.heap
      { m with heap := r.2, shared := eraseSlot m.shared i }
    | none => m
  | .wNew i =>
    match lookupSlot m.weak i with
    | some _ => m
    | none => { m with weak := setSlot m.weak i { block := none, ptr := none } }
  | .wNewRaw i p =>
    match lookupSlot m.weak i with
    | some _ => m
    | none =>
      let r := weakFromRaw p m.heap
      { m with heap := r.2, weak := setSlot m.weak i r.1 }
  | .wCopy i j =>
    match lookupSlot m.weak i, lookupSlot m.weak j with
    | none, some src =>
      let r := weakCopy src m.heap
      { m with heap := r.2, weak := setSlot m.weak i r.1 }
    | _, _ => m
  | .wMove i j =>
    match lookupSlot m.weak i, lookupSlot m.weak j with
    | none, some src =>
      let r := weakMoveFields src
      { m with weak := setSlot (setSlot m.weak j r.2) i r.1 }
    | _, _ => m
  | .wFromShared i j =>
    match lookupSlot m.weak i, lookupSlot m.shared j with
    | none, some sp =>
      let r := weakFromShared sp m.heap
      { m with heap := r.2, weak := setSlot m.weak i r.1 }
    | _, _ => m
  | .wCopyAssign i j =>
    if i = j then m else
    match lookupSlot m.weak i, lookupSlot m.weak j with
    | some dst, some src =>
      let r1 := weakRelease dst m.heap
      let r2 := weakCopy src r1.2
      { m with heap := r2.2, weak := setSlot m.weak i r2.1 }
    | _, _ => m
  | .wMoveAssign i j =>
    if i = j then m else
    match lookupSlot m.weak i, lookupSlot m.weak j with
    | some dst, some src =>
      let r1 := weakRelease dst m.heap
      let cleared : WeakPtr := { block := none, ptr := none }
      let moved : WeakPtr := { block := src.block, ptr := src.ptr }
      { m with heap := r1.2, weak := setSlot (setSlot m.weak j cleared) i moved }
    | _, _ => m
  | .wDestroy i =>
    match lookupSlot m.weak i with
    | some dst =>
      let r := weakRelease dst m.heap
      { m with heap := r.2, weak := eraseSlot m.weak i }
    | none => m
  | .wLock i w =>
    match lookupSlot m.shared i, lookupSlot m.weak w with
    | none, some wp =>
      let r := weakLock wp m.heap
      { m with heap := r.2, shared := setSlot m.shared i r.1 }
    | _, _ => m

def initMachine : Machine :=
  { heap := { blocks := [], nextBlock := 0, values := fun _ => false, nextValue := 0,
              valueFrees := fun _ => 0, blockFrees := fun _ => 0 },
    shared := [], weak := [] }

def run (ops : List Op) : Machine :=
  ops.foldl (fun m o => step o m) initMachine

/-- Number of live owning handles in `ls` referencing block `b`. -/
def countS (ls : List SharedPtr) (b : Nat) : Nat :=
  ls.countP (fun hd => hd.block == some b)

/-- Number of live observer handles in `lw` referencing block `b`. -/
def countW (lw : List WeakPtr) (b : Nat) : Nat :=
  lw.countP (fun w => w.block == some b)

/-- Number of owning handle slots of `m` referencing block `b`. -/
def refsS (m : Machine) (b : Nat) : Nat :=
  countS (m.shared.map Prod.snd) b

/-- Number of observer handle slots of `m` referencing block `b`. -/
def refsW (m : Machine) (b : Nat) : Nat :=
  countW (m.weak.map Prod.snd) b

/-- The strong count currently governing value `v`: the shared count of the
(unique) live block whose handles own `v`, or `0` when no such block exists. -/
def strongOf (m : Machine) (v : Nat) : Nat :=
  match m.heap.blocks.find? (fun e => e.2.val == v) with
  | some e => e.2.shared_count
  | none => 0

def keysNodup {α : Type} (l : List (Nat × α)) : Prop :=
  (l.map Prod.fst).Nodup

/-- Well-formedness of a heap together with the multiset of live owning
handles `ls` and live observer handles `lw` (slot contents plus any handle
objects currently in flight). -/
structure WFc (h : Heap) (ls : List SharedPtr) (lw : List WeakPtr) : Prop where
  bNodup : keysNodup h.blocks
  bMem : ∀ e ∈ h.blocks,
    e.1 < h.nextBlock ∧ e.2.val < h.nextValue ∧
    e.2.shared_count = countS ls e.1 ∧ e.2.weak_count = countW lw e.1 ∧
    (h.values e.2.val = true ↔ 0 < e.2.shared_count) ∧
    0 < e.2.shared_count + e.2.weak_count
  vInj : ∀ e ∈ h.blocks, ∀ e2 ∈ h.blocks, e.2.val = e2.2.val → e.1 = e2.1
  sOK : ∀ hd ∈ ls, (hd.block = none → hd.ptr = none) ∧
    ∀ b, hd.block = some b → ∃ cb, (b, cb) ∈ h.blocks ∧ hd.ptr = some cb.val
  wOK : ∀ w ∈ lw, ∀ b, w.block = some b →
    ∃ cb, (b, cb) ∈ h.blocks ∧ w.ptr = some cb.val
  aliveLt : ∀ v, h.values v = true → v < h.nextValue
  aliveIff : ∀ v, v < h.nextValue → (h.values v = true ↔ h.valueFrees v = 0)
  vFresh : ∀ v, h.nextValue ≤ v → h.values v = false ∧ h.valueFrees v = 0
  vOnce : ∀ v, h.valueFrees v ≤ 1
  aliveBlock : ∀ v, h.values v = true →
    ∃ e ∈ h.blocks, e.2.val = v ∧ 0 < e.2.shared_count
  bLiveIff : ∀ b, b < h.nextBlock →
    ((∃ cb, (b, cb) ∈ h.blocks) ↔ h.blockFrees b = 0)
  bFresh : ∀ b, h.nextBlock ≤ b → h.blockFrees b = 0
  bOnce : ∀ b, h.blockFrees b ≤ 1

/-- Well-formedness of a machine state. -/
def WF (m : Machine) : Prop :=
  WFc m.heap (m.shared.map Prod.snd) (m.weak.map Prod.snd) ∧
  keysNodup m.shared ∧ keysNodup m.weak

/-! ### Association-list slot lemmas -/

theorem mem_eraseSlot_iff {α : Type} {l : List (Nat × α)} {i : Nat} {e : Nat × α} :
    e ∈ eraseSlot l i ↔ e ∈ l ∧ e.1 ≠ i := by
  simp [eraseSlot, List.mem_filter]

theorem mem_setSlot_iff {α : Type} {l : List (Nat × α)} {i : Nat} {a : α} {e : Nat × α} :
    e ∈ setSlot l i a ↔ e = (i, a) ∨ (e ∈ l ∧ e.1 ≠ i) := by
  simp [setSlot, mem_eraseSlot_iff]

theorem eraseSlot_cons {α : Type} (e : Nat × α) (t : List (Nat × α)) (i : Nat) :
    eraseSlot (e :: t) i = if e.1 = i then eraseSlot t i else e :: eraseSlot t i := by
  by_cases he : e.1 = i <;> simp [eraseSlot, List.filter_cons, he]

theorem keysNodup_cons {α : Type} {e : Nat × α} {t : List (Nat × α)} :
    keysNodup (e :: t) ↔ e.1 ∉ t.map Prod.fst ∧ keysNodup t := by
  simp [keysNodup]

theorem lookupSlot_eraseSlot_ne {α : Type} {l : List (Nat × α)} {i j : Nat} (h : j ≠ i) :
    lookupSlot (eraseSlot l i) j = lookupSlot l j := by
  induction l with
  | nil => rfl
  | cons e t ih =>
    rw [eraseSlot_cons]
    by_cases he : e.1 = i
    · have hej : e.1 ≠ j := fun hj => h (he.symm.trans hj).symm
      rw [if_pos he, ih]
      conv_rhs => rw [lookupSlot]
      rw [if_neg hej]
    · rw [if_neg he]
      simp only [lookupSlot]
      by_cases hej : e.1 = j
      · rw [if_pos hej, if_pos hej]
      · rw [if_neg hej, if_neg hej, ih]

theorem lookupSlot_setSlot_self {α : Type} (l : List (Nat × α)) (i : Nat) (a : α) :
    lookupSlot (setSlot l i a) i = some a := by
  simp [setSlot, lookupSlot]

theorem lookupSlot_setSlot_ne {α : Type} {l : List (Nat × α)} {i j : Nat} (h : j ≠ i) (a : α) :
    lookupSlot (setSlot l i a) j = lookupSlot l j := by
  have hij : i ≠ j := fun e => h e.symm
  simp [setSlot, lookupSlot, hij, lookupSlot_eraseSlot_ne h]

theorem lookupSlot_eraseSlot_self {α : Type} (l : List (Nat × α)) (i : Nat) :
    lookupSlot (eraseSlot l i) i = none := by
  induction l with
  | nil => rfl
  | cons e t ih =>
    rw [eraseSlot_cons]
    by_cases he : e.1 = i <;> simp [he, lookupSlot, ih]

theorem lookupSlot_mem {α : Type} {l : List (Nat × α)} {i : Nat} {a : α}
    (h : lookupSlot l i = some a) : (i, a) ∈ l := by
  induction l with
  | nil => simp [lookupSlot] at h
  | cons e t ih =>
    rw [lookupSlot] at h
    by_cases he : e.1 = i
    · simp only [he, if_true, Option.some.injEq] at h
      exact List.mem_cons.mpr (Or.inl (by cases e; simp_all))
    · simp only [he, if_false] at h
      exact List.mem_cons_of_mem _ (ih h)

theorem lookupSlot_ne_none_of_mem {α : Type} {l : List (Nat × α)} {i : Nat} {a : α}
    (h : (i, a) ∈ l) : lookupSlot l i ≠ none := by
  induction l with
  | nil => simp at h
  | cons e t ih =>
    rw [lookupSlot]
    rcases List.mem_cons.mp h with rfl | hm
    · simp
    · by_cases he : e.1 = i
      · simp [he]
      · simpa [he] using ih hm

theorem not_mem_keys_of_lookupSlot_eq_none {α : Type} {l : List (Nat × α)} {i : Nat}
    (h : lookupSlot l i = none) : i ∉ l.map Prod.fst := by
  intro hm
  obtain ⟨e, he, hfst⟩ := List.mem_map.mp hm
  refine @lookupSlot_ne_none_of_mem _ _ _ e.2 ?_ h
  rw [show (i, e.2) = e by cases e; simp_all]
  exact he

theorem lookupSlot_of_mem_nodup {α : Type} {l : List (Nat × α)} {i : Nat} {a : α}
    (hn : keysNodup l) (h : (i, a) ∈ l) : lookupSlot l i = some a := by
  induction l with
  | nil => simp at h
  | cons e t ih =>
    rcases List.mem_cons.mp h with rfl | hm
    · simp [lookupSlot]
    · have hkey : i ∈ t.map Prod.fst := List.mem_map.mpr ⟨(i, a), hm, rfl⟩
      have he : e.1 ≠ i := fun hei => (keysNodup_cons.mp hn).1 (hei ▸ hkey)
      rw [lookupSlot]
      simp only [he, if_false]
      exact ih (keysNodup_cons.mp hn).2 hm

theorem mem_nodup_unique {α : Type} {l : List (Nat × α)} (hn : keysNodup l) {i : Nat}
    {a a2 : α} (h : (i, a) ∈ l) (h2 : (i, a2) ∈ l) : a = a2 := by
  have e1 := lookupSlot_of_mem_nodup hn h
  have e2 := lookupSlot_of_mem_nodup hn h2
  rw [e1] at e2
  exact (Option.some.injEq _ _ ▸ e2)

theorem not_mem_map_fst_eraseSlot {α : Type} (l : List (Nat × α)) (i : Nat) :
    i ∉ (eraseSlot l i).map Prod.fst := by
  intro hm
  obtain ⟨e, he, hfst⟩ := List.mem_map.mp hm
  exact (mem_eraseSlot_iff.mp he).2 hfst

theorem keysNodup_eraseSlot {α : Type} {l : List (Nat × α)} (hn : keysNodup l) (i : Nat) :
    keysNodup (eraseSlot l i) := by
  exact ((List.filter_sublist l).map Prod.fst).nodup hn

theorem keysNodup_setSlot {α : Type} {l : List (Nat × α)} (hn : keysNodup l) (i : Nat) (a : α) :
    keysNodup (setSlot l i a) := by
  rw [setSlot, keysNodup_cons]
  exact ⟨not_mem_map_fst_eraseSlot l i, keysNodup_eraseSlot hn i⟩

theorem eraseSlot_eq_of_not_mem {α : Type} {l : List (Nat × α)} {i : Nat}
    (h : i ∉ l.map Prod.fst) : eraseSlot l i = l := by
  refine List.filter_eq_self.mpr (fun e he => ?_)
  have : e.1 ≠ i := fun hei => h (List.mem_map.mpr ⟨e, he, hei⟩)
  simpa using this

theorem perm_extract {α : Type} {l : List (Nat × α)} {i : Nat} {a : α}
    (hn : keysNodup l) (h : lookupSlot l i = some a) :
    (l.map Prod.snd).Perm (a :: (eraseSlot l i).map Prod.snd) := by
  induction l with
  | nil => simp [lookupSlot] at h
  | cons e t ih =>
    rw [lookupSlot] at h
    by_cases he : e.1 = i
    · simp only [he, if_true, Option.some.injEq] at h
      subst h
      rw [eraseSlot_cons]
      simp only [he, if_true]
      rw [eraseSlot_eq_of_not_mem (he ▸ (keysNodup_cons.mp hn).1)]
      simp
    · simp only [he, if_false] at h
      have hper := ih (keysNodup_cons.mp hn).2 h
      rw [eraseSlot_cons]
      simp only [he, if_false, List.map_cons]
      exact (hper.cons e.2).trans (List.Perm.swap a e.2 _)

/-! ### Heap primitive field lemmas -/

@[simp] theorem setBlock_blocks (h : Heap) (b : Nat) (cb : ControlBlock) :
    (setBlock h b cb).blocks = setSlot h.blocks b cb := rfl
@[simp] theorem setBlock_nextBlock (h : Heap) (b : Nat) (cb : ControlBlock) :
    (setBlock h b cb).nextBlock = h.nextBlock := rfl
@[simp] theorem setBlock_values (h : Heap) (b : Nat) (cb : ControlBlock) :
    (setBlock h b cb).values = h.values := rfl
@[simp] theorem setBlock_nextValue (h : Heap) (b : Nat) (cb : ControlBlock) :
    (setBlock h b cb).nextValue = h.nextValue := rfl
@[simp] theorem setBlock_valueFrees (h : Heap) (b : Nat) (cb : ControlBlock) :
    (setBlock h b cb).valueFrees = h.valueFrees := rfl
@[simp] theorem setBlock_blockFrees (h : Heap) (b : Nat) (cb : ControlBlock) :
    (setBlock h b cb).blockFrees = h.blockFrees := rfl

@[simp] theorem freeBlock_blocks (h : Heap) (b : Nat) :
    (freeBlock h b).blocks = eraseSlot h.blocks b := rfl
@[simp] theorem freeBlock_nextBlock (h : Heap) (b : Nat) :
    (freeBlock h b).nextBlock = h.nextBlock := rfl
@[simp] theorem freeBlock_values (h : Heap) (b : Nat) :
    (freeBlock h b).values = h.values := rfl
@[simp] theorem freeBlock_nextValue (h : Heap) (b : Nat) :
    (freeBlock h b).nextValue = h.nextValue := rfl
@[simp] theorem freeBlock_valueFrees (h : Heap) (b : Nat) :
    (freeBlock h b).valueFrees = h.valueFrees := rfl
theorem freeBlock_blockFrees (h : Heap) (b x : Nat) :
    (freeBlock h b).blockFrees x = if x = b then h.blockFrees x + 1 else h.blockFrees x := rfl

@[simp] theorem freeValue_blocks (h : Heap) (p : Option Nat) :
    (freeValue h p).blocks = h.blocks := by cases p <;> rfl
@[simp] theorem freeValue_nextBlock (h : Heap) (p : Option Nat) :
    (freeValue h p).nextBlock = h.nextBlock := by cases p <;> rfl
@[simp] theorem freeValue_nextValue (h : Heap) (p : Option Nat) :
    (freeValue h p).nextValue = h.nextValue := by cases p <;> rfl
@[simp] theorem freeValue_blockFrees (h : Heap) (p : Option Nat) :
    (freeValue h p).blockFrees = h.blockFrees := by cases p <;> rfl
theorem freeValue_values_some (h : Heap) (v x : Nat) :
    (freeValue h (some v)).values x = if x = v then false else h.values x := rfl
theorem freeValue_valueFrees_some (h : Heap) (v x : Nat) :
    (freeValue h (some v)).valueFrees x = if x = v then h.valueFrees x + 1 else h.valueFrees x := rfl

@[simp] theorem allocValue_snd_blocks (h : Heap) : (allocValue h).2.blocks = h.blocks := rfl
@[simp] theorem allocValue_snd_nextBlock (h : Heap) :
    (allocValue h).2.nextBlock = h.nextBlock := rfl
@[simp] theorem allocValue_snd_nextValue (h : Heap) :
    (allocValue h).2.nextValue = h.nextValue + 1 := rfl
@[simp] theorem allocValue_snd_valueFrees (h : Heap) :
    (allocValue h).2.valueFrees = h.valueFrees := rfl
@[simp] theorem allocValue_snd_blockFrees (h : Heap) :
    (allocValue h).2.blockFrees = h.blockFrees := rfl
@[simp] theorem allocValue_fst (h : Heap) : (allocValue h).1 = h.nextValue := rfl
theorem allocValue_snd_values (h : Heap) (x : Nat) :
    (allocValue h).2.values x = if x = h.nextValue then true else h.values x := rfl

@[simp] theorem allocBlock_fst (h : Heap) (cb : ControlBlock) :
    (allocBlock h cb).1 = h.nextBlock := rfl
@[simp] theorem allocBlock_snd_blocks (h : Heap) (cb : ControlBlock) :
    (allocBlock h cb).2.blocks = (h.nextBlock, cb) :: h.blocks := rfl
@[simp] theorem allocBlock_snd_nextBlock (h : Heap) (cb : ControlBlock) :
    (allocBlock h cb).2.nextBlock = h.nextBlock + 1 := rfl
@[simp] theorem allocBlock_snd_values (h : Heap) (cb : ControlBlock) :
    (allocBlock h cb).2.values = h.values := rfl
@[simp] theorem allocBlock_snd_nextValue (h : Heap) (cb : ControlBlock) :
    (allocBlock h cb).2.nextValue = h.nextValue := rfl
@[simp] theorem allocBlock_snd_valueFrees (h : Heap) (cb : ControlBlock) :
    (allocBlock h cb).2.valueFrees = h.valueFrees := rfl
@[simp] theorem allocBlock_snd_blockFrees (h : Heap) (cb : ControlBlock) :
    (allocBlock h cb).2.blockFrees = h.blockFrees := rfl

theorem getBlock_setBlock_self (h : Heap) (b : Nat) (cb : ControlBlock) :
    getBlock (setBlock h b cb) b = some cb := by
  simp [getBlock, lookupSlot_setSlot_self]

theorem getBlock_setBlock_ne (h : Heap) {b b2 : Nat} (hne : b2 ≠ b) (cb : ControlBlock) :
    getBlock (setBlock h b cb) b2 = getBlock h b2 := by
  simp [getBlock, lookupSlot_setSlot_ne hne]

theorem getBlock_mem {h : Heap} {b : Nat} {cb : ControlBlock}
    (hl : getBlock h b = some cb) : (b, cb) ∈ h.blocks :=
  lookupSlot_mem hl

theorem getBlock_of_mem {h : Heap} (hn : keysNodup h.blocks) {b : Nat} {cb : ControlBlock}
    (hm : (b, cb) ∈ h.blocks) : getBlock h b = some cb :=
  lookupSlot_of_mem_nodup hn hm

/-! ### Count lemmas -/

theorem countS_cons (hd : SharedPtr) (ls : List SharedPtr) (b : Nat) :
    countS (hd :: ls) b = countS ls b + if hd.block = some b then 1 else 0 := by
  simp [countS, List.countP_cons]

theorem countW_cons (w : WeakPtr) (lw : List WeakPtr) (b : Nat) :
    countW (w :: lw) b = countW lw b + if w.block = some b then 1 else 0 := by
  simp [countW, List.countP_cons]

theorem countS_perm {ls ls2 : List SharedPtr} (hp : ls.Perm ls2) (b : Nat) :
    countS ls b = countS ls2 b :=
  hp.countP_eq _

theorem countW_perm {lw lw2 : List WeakPtr} (hp : lw.Perm lw2) (b : Nat) :
    countW lw b = countW lw2 b :=
  hp.countP_eq _

theorem countS_eq_zero {ls : List SharedPtr} {b : Nat} :
    countS ls b = 0 ↔ ∀ hd ∈ ls, hd.block ≠ some b := by
  simp [countS, List.countP_eq_zero]

theorem countS_pos_of_mem {ls : List SharedPtr} {hd : SharedPtr} {b : Nat}
    (hm : hd ∈ ls) (hb : hd.block = some b) : 0 < countS ls b := by
  refine List.countP_pos.mpr ⟨hd, hm, ?_⟩
  simp [hb]

theorem countW_eq_zero {lw : List WeakPtr} {b : Nat} :
    countW lw b = 0 ↔ ∀ w ∈ lw, w.block ≠ some b := by
  simp [countW, List.countP_eq_zero]

theorem countW_pos_of_mem {lw : List WeakPtr} {w : WeakPtr} {b : Nat}
    (hm : w ∈ lw) (hb : w.block = some b) : 0 < countW lw b := by
  refine List.countP_pos.mpr ⟨w, hm, ?_⟩
  simp [hb]

/-! ### Well-formedness: permutation and simple context lemmas -/

theorem WFc_perm {h : Heap} {ls ls2 : List SharedPtr} {lw lw2 : List WeakPtr}
    (hW : WFc h ls lw) (p1 : ls.Perm ls2) (p2 : lw.Perm lw2) : WFc h ls2 lw2 := by
  refine ⟨hW.bNodup, ?_, hW.vInj, ?_, ?_, hW.aliveLt, hW.aliveIff, hW.vFresh, hW.vOnce,
    hW.aliveBlock, hW.bLiveIff, hW.bFresh, hW.bOnce⟩
  · intro e he
    obtain ⟨h1, h2, h3, h4, h5, h6⟩ := hW.bMem e he
    exact ⟨h1, h2, h3.trans (countS_perm p1 e.1), h4.trans (countW_perm p2 e.1), h5, h6⟩
  · exact fun hd hm => hW.sOK hd (p1.symm.subset hm)
  · exact fun w hm => hW.wOK w (p2.symm.subset hm)

theorem WFc_addShared_noBlock {h : Heap} {ls : List SharedPtr} {lw : List WeakPtr}
    (hW : WFc h ls lw) {hd : SharedPtr} (hb : hd.block = none) (hp : hd.ptr = none) :
    WFc h (hd :: ls) lw := by
  refine ⟨hW.bNodup, ?_, hW.vInj, ?_, hW.wOK, hW.aliveLt, hW.aliveIff, hW.vFresh, hW.vOnce,
    hW.aliveBlock, hW.bLiveIff, hW.bFresh, hW.bOnce⟩
  · intro e he
    obtain ⟨h1, h2, h3, h4, h5, h6⟩ := hW.bMem e he
    refine ⟨h1, h2, ?_, h4, h5, h6⟩
    rw [countS_cons, hb]
    simp [h3]
  · intro hd2 hm
    rcases List.mem_cons.mp hm with rfl | hm2
    · exact ⟨fun _ => hp, fun b hbb => by rw [hb] at hbb; cases hbb⟩
    · exact hW.sOK hd2 hm2

theorem WFc_addWeak_noBlock {h : Heap} {ls : List SharedPtr} {lw : List WeakPtr}
    (hW : WFc h ls lw) {w : WeakPtr} (hb : w.block = none) : WFc h ls (w :: lw) := by
  refine ⟨hW.bNodup, ?_, hW.vInj, hW.sOK, ?_, hW.aliveLt, hW.aliveIff, hW.vFresh, hW.vOnce,
    hW.aliveBlock, hW.bLiveIff, hW.bFresh, hW.bOnce⟩
  · intro e he
    obtain ⟨h1, h2, h3, h4, h5, h6⟩ := hW.bMem e he
    refine ⟨h1, h2, h3, ?_, h5, h6⟩
    rw [countW_cons, hb]
    simp [h4]
  · intro w2 hm
    rcases List.mem_cons.mp hm with rfl | hm2
    · exact fun b hbb => by rw [hb] at hbb; cases hbb
    · exact hW.wOK w2 hm2

theorem WFc_dropShared_noBlock {h : Heap} {ls : List SharedPtr} {lw : List WeakPtr}
    {hd : SharedPtr} (hW : WFc h (hd :: ls) lw) (hb : hd.block = none) : WFc h ls lw := by
  refine ⟨hW.bNodup, ?_, hW.vInj, ?_, hW.wOK, hW.aliveLt, hW.aliveIff, hW.vFresh, hW.vOnce,
    hW.aliveBlock, hW.bLiveIff, hW.bFresh, hW.bOnce⟩
  · intro e he
    obtain ⟨h1, h2, h3, h4, h5, h6⟩ := hW.bMem e he
    rw [countS_cons, hb] at h3
    simp at h3
    exact ⟨h1, h2, h3, h4, h5, h6⟩
  · exact fun hd2 hm => hW.sOK hd2 (List.mem_cons_of_mem hd hm)

theorem WFc_dropWeak_noBlock {h : Heap} {ls : List SharedPtr} {lw : List WeakPtr}
    {w : WeakPtr} (hW : WFc h ls (w :: lw)) (hb : w.block = none) : WFc h ls lw := by
  refine ⟨hW.bNodup, ?_, hW.vInj, hW.sOK, ?_, hW.aliveLt, hW.aliveIff, hW.vFresh, hW.vOnce,
    hW.aliveBlock, hW.bLiveIff, hW.bFresh, hW.bOnce⟩
  · intro e he
    obtain ⟨h1, h2, h3, h4, h5, h6⟩ := hW.bMem e he
    rw [countW_cons, hb] at h4
    simp at h4
    exact ⟨h1, h2, h3, h4, h5, h6⟩
  · exact fun w2 hm => hW.wOK w2 (List.mem_cons_of_mem w hm)

theorem eraseSlot_setSlot_self {α : Type} (l : List (Nat × α)) (i : Nat) (a : α) :
    eraseSlot (setSlot l i a) i = eraseSlot l i := by
  rw [setSlot, eraseSlot_cons]
  simp [eraseSlot_eq_of_not_mem (not_mem_map_fst_eraseSlot l i)]

theorem countS_cons_ne {hd : SharedPtr} {ls : List SharedPtr} {b : Nat}
    (hb : hd.block ≠ some b) : countS (hd :: ls) b = countS ls b := by
  rw [countS_cons]
  simp [hb]

theorem countW_cons_ne {w : WeakPtr} {lw : List WeakPtr} {b : Nat}
    (hb : w.block ≠ some b) : countW (w :: lw) b = countW lw b := by
  rw [countW_cons]
  simp [hb]

theorem WFc_sharedRelease {h : Heap} {ls : List SharedPtr} {lw : List WeakPtr}
    {hd : SharedPtr} (hW : WFc h (hd :: ls) lw) : WFc (sharedRelease hd h).2 ls lw := by
  rcases hbc : hd.block with _ | b
  · simp only [sharedRelease, hbc]
    exact WFc_dropShared_noBlock hW hbc
  · obtain ⟨cb, hmem, hptr⟩ := (hW.sOK hd (List.mem_cons_self hd ls)).2 b hbc
    have hget : getBlock h b = some cb := getBlock_of_mem hW.bNodup hmem
    obtain ⟨hbLT, hvLT, hsc, hwc, hvalive, hnz⟩ := hW.bMem (b, cb) hmem
    dsimp only at hbLT hvLT hsc hwc hvalive hnz
    have hsc2 : cb.shared_count = countS ls b + 1 := by
      rw [hsc, countS_cons, hbc]
      simp
    simp only [sharedRelease, hbc, hget, hsc2, Nat.add_sub_cancel, hptr]
    have hvinjb : ∀ e ∈ h.blocks, e.2.val = cb.val → e.1 = b :=
      fun e he hv => hW.vInj e he (b, cb) hmem hv
    by_cases hn : countS ls b = 0
    · -- this was the last owning handle: the value is destroyed
      have halive : h.values cb.val = true := hvalive.mpr (by rw [hsc2]; exact Nat.succ_pos _)
      have hfree0 : h.valueFrees cb.val = 0 := (hW.aliveIff cb.val hvLT).mp halive
      have hnoS : ∀ hd2 ∈ ls, hd2.block ≠ some b := countS_eq_zero.mp hn
      rw [if_pos hn]
      by_cases hw : cb.weak_count = 0
      · -- no observers either: the block is destroyed as well
        have hw0 : countW lw b = 0 := by rw [← hwc]; exact hw
        have hnoW : ∀ w2 ∈ lw, w2.block ≠ some b := countW_eq_zero.mp hw0
        have hfb0 : h.blockFrees b = 0 := (hW.bLiveIff b hbLT).mp ⟨cb, hmem⟩
        rw [if_pos hw]
        dsimp only
        set cbz : ControlBlock :=
          { shared_count := countS ls b, weak_count := cb.weak_count, val := cb.val } with hcbz
        have hbl : (freeBlock (freeValue (setBlock h b cbz) (some cb.val)) b).blocks
            = eraseSlot h.blocks b := by
          rw [freeBlock_blocks]
          exact eraseSlot_setSlot_self h.blocks b cbz
        refine ⟨?_, ?_, ?_, ?_, ?_, ?_, ?_, ?_, ?_, ?_, ?_, ?_, ?_⟩
        · show keysNodup (freeBlock (freeValue (setBlock h b cbz) (some cb.val)) b).blocks
          rw [hbl]
          exact keysNodup_eraseSlot hW.bNodup b
        · intro e he
          rw [hbl] at he
          obtain ⟨hold, hne⟩ := mem_eraseSlot_iff.mp he
          obtain ⟨g1, g2, g3, g4, g5, g6⟩ := hW.bMem e hold
          have hbne : hd.block ≠ some e.1 := by
            rw [hbc]
            exact fun hh => hne (by injection hh with hh2; exact hh2.symm)
          have hval_ne : e.2.val ≠ cb.val := fun hv => hne (hvinjb e hold hv)
          rw [countS_cons_ne hbne] at g3
          refine ⟨g1, g2, g3, g4, ?_, g6⟩
          show (freeValue (setBlock h b cbz) (some cb.val)).values e.2.val = true ↔ _
          rw [freeValue_values_some, if_neg hval_ne, setBlock_values]
          exact g5
        · intro e he e2 he2 hv
          rw [hbl] at he he2
          exact hW.vInj e (mem_eraseSlot_iff.mp he).1 e2 (mem_eraseSlot_iff.mp he2).1 hv
        · intro hd2 hm
          obtain ⟨hnn, hss⟩ := hW.sOK hd2 (List.mem_cons_of_mem hd hm)
          refine ⟨hnn, fun b2 hb2 => ?_⟩
          obtain ⟨cb2, hcm, hp2⟩ := hss b2 hb2
          have hbe : b2 ≠ b := fun heq => hnoS hd2 hm (heq ▸ hb2)
          refine ⟨cb2, ?_, hp2⟩
          rw [hbl]
          exact mem_eraseSlot_iff.mpr ⟨hcm, hbe⟩
        · intro w2 hm b2 hb2
          obtain ⟨cb2, hcm, hp2⟩ := hW.wOK w2 hm b2 hb2
          have hbe : b2 ≠ b := fun heq => hnoW w2 hm (heq ▸ hb2)
          refine ⟨cb2, ?_, hp2⟩
          rw [hbl]
          exact mem_eraseSlot_iff.mpr ⟨hcm, hbe⟩
        · intro v hv
          rw [show (freeBlock (freeValue (setBlock h b cbz) (some cb.val)) b).values v
              = (freeValue (setBlock h b cbz) (some cb.val)).values v from rfl,
            freeValue_values_some] at hv
          by_cases hvv : v = cb.val
          · rw [if_pos hvv] at hv
            cases hv
          · rw [if_neg hvv, setBlock_values] at hv
            exact hW.aliveLt v hv
        · intro v hvlt
          show (freeValue (setBlock h b cbz) (some cb.val)).values v = true ↔
            (freeValue (setBlock h b cbz) (some cb.val)).valueFrees v = 0
          rw [freeValue_values_some, freeValue_valueFrees_some, setBlock_values,
            setBlock_valueFrees]
          by_cases hvv : v = cb.val
          · rw [if_pos hvv, if_pos hvv, hvv, hfree0]
            simp
          · rw [if_neg hvv, if_neg hvv]
            exact hW.aliveIff v hvlt
        · intro v hge
          have hvv : v ≠ cb.val := fun hvv => absurd hvLT (by rw [← hvv]; exact Nat.not_lt.mpr hge)
          constructor
          · show (freeValue (setBlock h b cbz) (some cb.val)).values v = false
            rw [freeValue_values_some, if_neg hvv, setBlock_values]
            exact (hW.vFresh v hge).1
          · show (freeValue (setBlock h b cbz) (some cb.val)).valueFrees v = 0
            rw [freeValue_valueFrees_some, if_neg hvv, setBlock_valueFrees]
            exact (hW.vFresh v hge).2
        · intro v
          show (freeValue (setBlock h b cbz) (some cb.val)).valueFrees v ≤ 1
          rw [freeValue_valueFrees_some, setBlock_valueFrees]
          by_cases hvv : v = cb.val
          · rw [if_pos hvv, hvv, hfree0]
          · rw [if_neg hvv]
            exact hW.vOnce v
        · intro v hv
          rw [show (freeBlock (freeValue (setBlock h b cbz) (some cb.val)) b).values v
              = (freeValue (setBlock h b cbz) (some cb.val)).values v from rfl,
            freeValue_values_some] at hv
          by_cases hvv : v = cb.val
          · rw [if_pos hvv] at hv
            cases hv
          · rw [if_neg hvv, setBlock_values] at hv
            obtain ⟨e, he, hval, hpos⟩ := hW.aliveBlock v hv
            have hbe : e.1 ≠ b := by
              intro heq
              have he2 : (b, e.2) ∈ h.blocks := by
                rw [← heq]
                exact he
              have hecb : e.2 = cb := mem_nodup_unique hW.bNodup he2 hmem
              exact hvv (by rw [← hval, hecb])
            refine ⟨e, ?_, hval, hpos⟩
            rw [hbl]
            exact mem_eraseSlot_iff.mpr ⟨he, hbe⟩
        · intro b2 hlt2
          by_cases hbe : b2 = b
          · subst hbe
            refine iff_of_false ?_ ?_
            · rintro ⟨cb2, hcm⟩
              rw [hbl] at hcm
              exact (mem_eraseSlot_iff.mp hcm).2 rfl
            · show ¬(freeBlock (freeValue (setBlock h b2 cbz) (some cb.val)) b2).blockFrees b2 = 0
              rw [freeBlock_blockFrees, if_pos rfl]
              simp
          · have hiff := hW.bLiveIff b2 hlt2
            constructor
            · rintro ⟨cb2, hcm⟩
              rw [hbl] at hcm
              have hres := hiff.mp ⟨cb2, (mem_eraseSlot_iff.mp hcm).1⟩
              show (freeBlock (freeValue (setBlock h b cbz) (some cb.val)) b).blockFrees b2 = 0
              rw [freeBlock_blockFrees, if_neg hbe, freeValue_blockFrees, setBlock_blockFrees]
              exact hres
            · intro hf
              rw [show (freeBlock (freeValue (setBlock h b cbz) (some cb.val)) b).blockFrees b2
                  = if b2 = b then h.blockFrees b2 + 1 else h.blockFrees b2 from rfl,
                if_neg hbe] at hf
              obtain ⟨cb2, hcm⟩ := hiff.mpr hf
              refine ⟨cb2, ?_⟩
              rw [hbl]
              exact mem_eraseSlot_iff.mpr ⟨hcm, hbe⟩
        · intro b2 hge
          have hbe : b2 ≠ b := fun heq => absurd hbLT (by rw [← heq]; exact Nat.not_lt.mpr hge)
          show (freeBlock (freeValue (setBlock h b cbz) (some cb.val)) b).blockFrees b2 = 0
          rw [freeBlock_blockFrees, if_neg hbe, freeValue_blockFrees, setBlock_blockFrees]
          exact hW.bFresh b2 hge
        · intro b2
          show (freeBlock (freeValue (setBlock h b cbz) (some cb.val)) b).blockFrees b2 ≤ 1
          rw [freeBlock_blockFrees]
          by_cases hbe : b2 = b
          · rw [if_pos hbe, hbe, freeValue_blockFrees, setBlock_blockFrees, hfb0]
          · rw [if_neg hbe]
            exact hW.bOnce b2
      · -- observers remain: the block survives with shared count zero
        rw [if_neg hw]
        dsimp only
        set cbz : ControlBlock :=
          { shared_count := countS ls b, weak_count := cb.weak_count, val := cb.val } with hcbz
        have hbl : (freeValue (setBlock h b cbz) (some cb.val)).blocks
            = setSlot h.blocks b cbz := by
          rw [freeValue_blocks, setBlock_blocks]
        refine ⟨?_, ?_, ?_, ?_, ?_, ?_, ?_, ?_, ?_, ?_, ?_, ?_, ?_⟩
        · show keysNodup (freeValue (setBlock h b cbz) (some cb.val)).blocks
          rw [hbl]
          exact keysNodup_setSlot hW.bNodup b cbz
        · intro e he
          rw [hbl] at he
          rcases mem_setSlot_iff.mp he with heq | ⟨hold, hne⟩
          · rw [heq]
            refine ⟨hbLT, hvLT, rfl, hwc, ?_, ?_⟩
            · show (freeValue (setBlock h b cbz) (some cb.val)).values cbz.val = true ↔
                0 < cbz.shared_count
              rw [freeValue_values_some]
              refine iff_of_false (by simp) ?_
              show ¬0 < countS ls b
              rw [hn]
              exact Nat.lt_irrefl 0
            · show 0 < cbz.shared_count + cbz.weak_count
              exact Nat.add_pos_right _ (Nat.pos_of_ne_zero hw)
          · obtain ⟨g1, g2, g3, g4, g5, g6⟩ := hW.bMem e hold
            have hbne : hd.block ≠ some e.1 := by
              rw [hbc]
              exact fun hh => hne (by injection hh with hh2; exact hh2.symm)
            have hval_ne : e.2.val ≠ cb.val := fun hv => hne (hvinjb e hold hv)
            rw [countS_cons_ne hbne] at g3
            refine ⟨g1, g2, g3, g4, ?_, g6⟩
            show (freeValue (setBlock h b cbz) (some cb.val)).values e.2.val = true ↔ _
            rw [freeValue_values_some, if_neg hval_ne, setBlock_values]
            exact g5
        · intro e he e2 he2 hv
          rw [hbl] at he he2
          rcases mem_setSlot_iff.mp he with heq | ⟨holde, hnee⟩ <;>
            rcases mem_setSlot_iff.mp he2 with heq2 | ⟨holde2, hnee2⟩
          · rw [heq, heq2]
          · have hb1 : e2.1 = b := hvinjb e2 holde2 (by rw [← hv, heq])
            rw [heq, hb1]
          · have hb1 : e.1 = b := hvinjb e holde (by rw [hv, heq2])
            rw [heq2, hb1]
          · exact hW.vInj e holde e2 holde2 hv
        · intro hd2 hm
          obtain ⟨hnn, hss⟩ := hW.sOK hd2 (List.mem_cons_of_mem hd hm)
          refine ⟨hnn, fun b2 hb2 => ?_⟩
          obtain ⟨cb2, hcm, hp2⟩ := hss b2 hb2
          have hbe : b2 ≠ b := fun heq => hnoS hd2 hm (heq ▸ hb2)
          refine ⟨cb2, ?_, hp2⟩
          rw [hbl]
          exact mem_setSlot_iff.mpr (Or.inr ⟨hcm, hbe⟩)
        · intro w2 hm b2 hb2
          obtain ⟨cb2, hcm, hp2⟩ := hW.wOK w2 hm b2 hb2
          by_cases hbe : b2 = b
          · subst hbe
            have hecb : cb2 = cb := mem_nodup_unique hW.bNodup hcm hmem
            refine ⟨cbz, ?_, ?_⟩
            · rw [hbl]
              exact mem_setSlot_iff.mpr (Or.inl rfl)
            · rw [hp2, hecb]
          · refine ⟨cb2, ?_, hp2⟩
            rw [hbl]
            exact mem_setSlot_iff.mpr (Or.inr ⟨hcm, hbe⟩)
        · intro v hv
          rw [show (freeValue (setBlock h b cbz) (some cb.val)).values v
              = if v = cb.val then false else h.values v from rfl] at hv
          by_cases hvv : v = cb.val
          · rw [if_pos hvv] at hv
            cases hv
          · rw [if_neg hvv] at hv
            exact hW.aliveLt v hv
        · intro v hvlt
          show (freeValue (setBlock h b cbz) (some cb.val)).values v = true ↔
            (freeValue (setBlock h b cbz) (some cb.val)).valueFrees v = 0
          rw [freeValue_values_some, freeValue_valueFrees_some, setBlock_values,
            setBlock_valueFrees]
          by_cases hvv : v = cb.val
          · rw [if_pos hvv, if_pos hvv, hvv, hfree0]
            simp
          · rw [if_neg hvv, if_neg hvv]
            exact hW.aliveIff v hvlt
        · intro v hge
          have hvv : v ≠ cb.val := fun hvv => absurd hvLT (by rw [← hvv]; exact Nat.not_lt.mpr hge)
          constructor
          · show (freeValue (setBlock h b cbz) (some cb.val)).values v = false
            rw [freeValue_values_some, if_neg hvv, setBlock_values]
            exact (hW.vFresh v hge).1
          · show (freeValue (setBlock h b cbz) (some cb.val)).valueFrees v = 0
            rw [freeValue_valueFrees_some, if_neg hvv, setBlock_valueFrees]
            exact (hW.vFresh v hge).2
        · intro v
          show (freeValue (setBlock h b cbz) (some cb.val)).valueFrees v ≤ 1
          rw [freeValue_valueFrees_some, setBlock_valueFrees]
          by_cases hvv : v = cb.val
          · rw [if_pos hvv, hvv, hfree0]
          · rw [if_neg hvv]
            exact hW.vOnce v
        · intro v hv
          rw [show (freeValue (setBlock h b cbz) (some cb.val)).values v
              = if v = cb.val then false else h.values v from rfl] at hv
          by_cases hvv : v = cb.val
          · rw [if_pos hvv] at hv
            cases hv
          · rw [if_neg hvv] at hv
            obtain ⟨e, he, hval, hpos⟩ := hW.aliveBlock v hv
            have hbe : e.1 ≠ b := by
              intro heq
              have he2 : (b, e.2) ∈ h.blocks := by
                rw [← heq]
                exact he
              have hecb : e.2 = cb := mem_nodup_unique hW.bNodup he2 hmem
              exact hvv (by rw [← hval, hecb])
            refine ⟨e, ?_, hval, hpos⟩
            rw [hbl]
            exact mem_setSlot_iff.mpr (Or.inr ⟨he, hbe⟩)
        · intro b2 hlt2
          have hfrees : (freeValue (setBlock h b cbz) (some cb.val)).blockFrees b2
              = h.blockFrees b2 := by
            rw [freeValue_blockFrees, setBlock_blockFrees]
          rw [hfrees]
          constructor
          · rintro ⟨cb2, hcm⟩
            rw [hbl] at hcm
            rcases mem_setSlot_iff.mp hcm with heq | ⟨hold2, hne2⟩
            · have hb2 : b2 = b := by
                have := congrArg Prod.fst heq
                exact this
              rw [hb2]
              exact (hW.bLiveIff b hbLT).mp ⟨cb, hmem⟩
            · exact (hW.bLiveIff b2 hlt2).mp ⟨cb2, hold2⟩
          · intro hf
            obtain ⟨cb2, hold2⟩ := (hW.bLiveIff b2 hlt2).mpr hf
            by_cases hbe : b2 = b
            · subst hbe
              refine ⟨cbz, ?_⟩
              rw [hbl]
              exact mem_setSlot_iff.mpr (Or.inl rfl)
            · refine ⟨cb2, ?_⟩
              rw [hbl]
              exact mem_setSlot_iff.mpr (Or.inr ⟨hold2, hbe⟩)
        · intro b2 hge
          show (freeValue (setBlock h b cbz) (some cb.val)).blockFrees b2 = 0
          rw [freeValue_blockFrees, setBlock_blockFrees]
          exact hW.bFresh b2 hge
        · intro b2
          show (freeValue (setBlock h b cbz) (some cb.val)).blockFrees b2 ≤ 1
          rw [freeValue_blockFrees, setBlock_blockFrees]
          exact hW.bOnce b2
    · -- other owning handles remain: only the counter is decremented
      have hpos : 0 < countS ls b := Nat.pos_of_ne_zero hn
      have halive : h.values cb.val = true := hvalive.mpr (by rw [hsc2]; exact Nat.succ_pos _)
      rw [if_neg hn]
      dsimp only
      set cbz : ControlBlock :=
        { shared_count := countS ls b, weak_count := cb.weak_count, val := cb.val } with hcbz
      refine ⟨?_, ?_, ?_, ?_, ?_, ?_, ?_, ?_, ?_, ?_, ?_, ?_, ?_⟩
      · show keysNodup (setBlock h b cbz).blocks
        rw [setBlock_blocks]
        exact keysNodup_setSlot hW.bNodup b cbz
      · intro e he
        rw [setBlock_blocks] at he
        rcases mem_setSlot_iff.mp he with heq | ⟨hold, hne⟩
        · rw [heq]
          refine ⟨hbLT, hvLT, rfl, hwc, ?_, ?_⟩
          · show (setBlock h b cbz).values cbz.val = true ↔ 0 < cbz.shared_count
            rw [setBlock_values]
            exact iff_of_true halive hpos
          · show 0 < cbz.shared_count + cbz.weak_count
            exact Nat.add_pos_left hpos _
        · obtain ⟨g1, g2, g3, g4, g5, g6⟩ := hW.bMem e hold
          have hbne : hd.block ≠ some e.1 := by
            rw [hbc]
            exact fun hh => hne (by injection hh with hh2; exact hh2.symm)
          rw [countS_cons_ne hbne] at g3
          exact ⟨g1, g2, g3, g4, g5, g6⟩
      · intro e he e2 he2 hv
        rw [setBlock_blocks] at he he2
        rcases mem_setSlot_iff.mp he with heq | ⟨holde, hnee⟩ <;>
          rcases mem_setSlot_iff.mp he2 with heq2 | ⟨holde2, hnee2⟩
        · rw [heq, heq2]
        · have hb1 : e2.1 = b := hvinjb e2 holde2 (by rw [← hv, heq])
          rw [heq, hb1]
        · have hb1 : e.1 = b := hvinjb e holde (by rw [hv, heq2])
          rw [heq2, hb1]
        · exact hW.vInj e holde e2 holde2 hv
      · intro hd2 hm
        obtain ⟨hnn, hss⟩ := hW.sOK hd2 (List.mem_cons_of_mem hd hm)
        refine ⟨hnn, fun b2 hb2 => ?_⟩
        obtain ⟨cb2, hcm, hp2⟩ := hss b2 hb2
        by_cases hbe : b2 = b
        · subst hbe
          have hecb : cb2 = cb := mem_nodup_unique hW.bNodup hcm hmem
          refine ⟨cbz, ?_, ?_⟩
          · rw [setBlock_blocks]
            exact mem_setSlot_iff.mpr (Or.inl rfl)
          · rw [hp2, hecb]
        · refine ⟨cb2, ?_, hp2⟩
          rw [setBlock_blocks]
          exact mem_setSlot_iff.mpr (Or.inr ⟨hcm, hbe⟩)
      · intro w2 hm b2 hb2
        obtain ⟨cb2, hcm, hp2⟩ := hW.wOK w2 hm b2 hb2
        by_cases hbe : b2 = b
        · subst hbe
          have hecb : cb2 = cb := mem_nodup_unique hW.bNodup hcm hmem
          refine ⟨cbz, ?_, ?_⟩
          · rw [setBlock_blocks]
            exact mem_setSlot_iff.mpr (Or.inl rfl)
          · rw [hp2, hecb]
        · refine ⟨cb2, ?_, hp2⟩
          rw [setBlock_blocks]
          exact mem_setSlot_iff.mpr (Or.inr ⟨hcm, hbe⟩)
      · exact hW.aliveLt
      · exact hW.aliveIff
      · exact hW.vFresh
      · exact hW.vOnce
      · intro v hv
        obtain ⟨e, he, hval, hposE⟩ := hW.aliveBlock v hv
        by_cases hbe : e.1 = b
        · have he2 : (b, e.2) ∈ h.blocks := by
            rw [← hbe]
            exact he
          have hecb : e.2 = cb := mem_nodup_unique hW.bNodup he2 hmem
          refine ⟨(b, cbz), ?_, ?_, hpos⟩
          · rw [setBlock_blocks]
            exact mem_setSlot_iff.mpr (Or.inl rfl)
          · show cbz.val = v
            rw [← hval, hecb]
        · refine ⟨e, ?_, hval, hposE⟩
          rw [setBlock_blocks]
          exact mem_setSlot_iff.mpr (Or.inr ⟨he, hbe⟩)
      · intro b2 hlt2
        constructor
        · rintro ⟨cb2, hcm⟩
          rw [setBlock_blocks] at hcm
          rcases mem_setSlot_iff.mp hcm with heq | ⟨hold2, hne2⟩
          · have hb2 : b2 = b := congrArg Prod.fst heq
            rw [hb2]
            exact (hW.bLiveIff b hbLT).mp ⟨cb, hmem⟩
          · exact (hW.bLiveIff b2 hlt2).mp ⟨cb2, hold2⟩
        · intro hf
          obtain ⟨cb2, hold2⟩ := (hW.bLiveIff b2 hlt2).mpr hf
          by_cases hbe : b2 = b
          · subst hbe
            refine ⟨cbz, ?_⟩
            rw [setBlock_blocks]
            exact mem_setSlot_iff.mpr (Or.inl rfl)
          · refine ⟨cb2, ?_⟩
            rw [setBlock_blocks]
            exact mem_setSlot_iff.mpr (Or.inr ⟨hold2, hbe⟩)
      · exact hW.bFresh
      · exact hW.bOnce

theorem WFc_weakRelease {h : Heap} {ls : List SharedPtr} {lw : List WeakPtr}
    {w : WeakPtr} (hW : WFc h ls (w :: lw)) : WFc (weakRelease w h).2 ls lw := by
  rcases hbc : w.block with _ | b
  · simp only [weakRelease, hbc]
    exact WFc_dropWeak_noBlock hW hbc
  · obtain ⟨cb, hmem, hptr⟩ := hW.wOK w (List.mem_cons_self w lw) b hbc
    have hget : getBlock h b = some cb := getBlock_of_mem hW.bNodup hmem
    obtain ⟨hbLT, hvLT, hsc, hwc, hvalive, hnz⟩ := hW.bMem (b, cb) hmem
    dsimp only at hbLT hvLT hsc hwc hvalive hnz
    have hwc2 : cb.weak_count = countW lw b + 1 := by
      rw [hwc, countW_cons, hbc]
      simp
    simp only [weakRelease, hbc, hget, hwc2, Nat.add_sub_cancel]
    have hvinjb : ∀ e ∈ h.blocks, e.2.val = cb.val → e.1 = b :=
      fun e he hv => hW.vInj e he (b, cb) hmem hv
    by_cases hcond : countW lw b = 0 ∧ cb.shared_count = 0
    · -- last observer of a dead value: the block is destroyed
      obtain ⟨hw0, hs0⟩ := hcond
      have hn0 : countS ls b = 0 := by rw [← hsc]; exact hs0
      have hnoS : ∀ hd2 ∈ ls, hd2.block ≠ some b := countS_eq_zero.mp hn0
      have hnoW : ∀ w2 ∈ lw, w2.block ≠ some b := countW_eq_zero.mp hw0
      have hfb0 : h.blockFrees b = 0 := (hW.bLiveIff b hbLT).mp ⟨cb, hmem⟩
      rw [if_pos ⟨hw0, hs0⟩]
      dsimp only
      set cbz : ControlBlock :=
        { shared_count := cb.shared_count, weak_count := countW lw b, val := cb.val } with hcbz
      have hbl : (freeBlock (setBlock h b cbz) b).blocks = eraseSlot h.blocks b := by
        rw [freeBlock_blocks]
        exact eraseSlot_setSlot_self h.blocks b cbz
      refine ⟨?_, ?_, ?_, ?_, ?_, ?_, ?_, ?_, ?_, ?_, ?_, ?_, ?_⟩
      · show keysNodup (freeBlock (setBlock h b cbz) b).blocks
        rw [hbl]
        exact keysNodup_eraseSlot hW.bNodup b
      · intro e he
        rw [hbl] at he
        obtain ⟨hold, hne⟩ := mem_eraseSlot_iff.mp he
        obtain ⟨g1, g2, g3, g4, g5, g6⟩ := hW.bMem e hold
        have hbne : w.block ≠ some e.1 := by
          rw [hbc]
          exact fun hh => hne (by injection hh with hh2; exact hh2.symm)
        rw [countW_cons_ne hbne] at g4
        exact ⟨g1, g2, g3, g4, g5, g6⟩
      · intro e he e2 he2 hv
        rw [hbl] at he he2
        exact hW.vInj e (mem_eraseSlot_iff.mp he).1 e2 (mem_eraseSlot_iff.mp he2).1 hv
      · intro hd2 hm
        obtain ⟨hnn, hss⟩ := hW.sOK hd2 hm
        refine ⟨hnn, fun b2 hb2 => ?_⟩
        obtain ⟨cb2, hcm, hp2⟩ := hss b2 hb2
        have hbe : b2 ≠ b := fun heq => hnoS hd2 hm (heq ▸ hb2)
        refine ⟨cb2, ?_, hp2⟩
        rw [hbl]
        exact mem_eraseSlot_iff.mpr ⟨hcm, hbe⟩
      · intro w2 hm b2 hb2
        obtain ⟨cb2, hcm, hp2⟩ := hW.wOK w2 (List.mem_cons_of_mem w hm) b2 hb2
        have hbe : b2 ≠ b := fun heq => hnoW w2 hm (heq ▸ hb2)
        refine ⟨cb2, ?_, hp2⟩
        rw [hbl]
        exact mem_eraseSlot_iff.mpr ⟨hcm, hbe⟩
      · exact hW.aliveLt
      · exact hW.aliveIff
      · exact hW.vFresh
      · exact hW.vOnce
      · intro v hv
        obtain ⟨e, he, hval, hpos⟩ := hW.aliveBlock v hv
        have hbe : e.1 ≠ b := by
          intro heq
          have he2 : (b, e.2) ∈ h.blocks := by
            rw [← heq]
            exact he
          have hecb : e.2 = cb := mem_nodup_unique hW.bNodup he2 hmem
          rw [hecb, hs0] at hpos
          exact Nat.lt_irrefl 0 hpos
        refine ⟨e, ?_, hval, hpos⟩
        rw [hbl]
        exact mem_eraseSlot_iff.mpr ⟨he, hbe⟩
      · intro b2 hlt2
        by_cases hbe : b2 = b
        · subst hbe
          refine iff_of_false ?_ ?_
          · rintro ⟨cb2, hcm⟩
            rw [hbl] at hcm
            exact (mem_eraseSlot_iff.mp hcm).2 rfl
          · show ¬(freeBlock (setBlock h b2 cbz) b2).blockFrees b2 = 0
            rw [freeBlock_blockFrees, if_pos rfl]
            simp
        · have hiff := hW.bLiveIff b2 hlt2
          constructor
          · rintro ⟨cb2, hcm⟩
            rw [hbl] at hcm
            have hres := hiff.mp ⟨cb2, (mem_eraseSlot_iff.mp hcm).1⟩
            show (freeBlock (setBlock h b cbz) b).blockFrees b2 = 0
            rw [freeBlock_blockFrees, if_neg hbe, setBlock_blockFrees]
            exact hres
          · intro hf
            rw [show (freeBlock (setBlock h b cbz) b).blockFrees b2
                = if b2 = b then h.blockFrees b2 + 1 else h.blockFrees b2 from rfl,
              if_neg hbe] at hf
            obtain ⟨cb2, hcm⟩ := hiff.mpr hf
            refine ⟨cb2, ?_⟩
            rw [hbl]
            exact mem_eraseSlot_iff.mpr ⟨hcm, hbe⟩
      · intro b2 hge
        have hbe : b2 ≠ b := fun heq => absurd hbLT (by rw [← heq]; exact Nat.not_lt.mpr hge)
        show (freeBlock (setBlock h b cbz) b).blockFrees b2 = 0
        rw [freeBlock_blockFrees, if_neg hbe, setBlock_blockFrees]
        exact hW.bFresh b2 hge
      · intro b2
        show (freeBlock (setBlock h b cbz) b).blockFrees b2 ≤ 1
        rw [freeBlock_blockFrees]
        by_cases hbe : b2 = b
        · rw [if_pos hbe, hbe, setBlock_blockFrees, hfb0]
        · rw [if_neg hbe]
          exact hW.bOnce b2
    · -- the block survives
      rw [if_neg hcond]
      dsimp only
      set cbz : ControlBlock :=
        { shared_count := cb.shared_count, weak_count := countW lw b, val := cb.val } with hcbz
      refine ⟨?_, ?_, ?_, ?_, ?_, ?_, ?_, ?_, ?_, ?_, ?_, ?_, ?_⟩
      · show keysNodup (setBlock h b cbz).blocks
        rw [setBlock_blocks]
        exact keysNodup_setSlot hW.bNodup b cbz
      · intro e he
        rw [setBlock_blocks] at he
        rcases mem_setSlot_iff.mp he with heq | ⟨hold, hne⟩
        · rw [heq]
          refine ⟨hbLT, hvLT, hsc, rfl, hvalive, ?_⟩
          show 0 < cbz.shared_count + cbz.weak_count
          rcases Nat.eq_zero_or_pos cb.shared_count with hs | hs
          · have hw1 : countW lw b ≠ 0 := fun hw1 => hcond ⟨hw1, hs⟩
            exact Nat.add_pos_right _ (Nat.pos_of_ne_zero hw1)
          · exact Nat.add_pos_left hs _
        · obtain ⟨g1, g2, g3, g4, g5, g6⟩ := hW.bMem e hold
          have hbne : w.block ≠ some e.1 := by
            rw [hbc]
            exact fun hh => hne (by injection hh with hh2; exact hh2.symm)
          rw [countW_cons_ne hbne] at g4
          exact ⟨g1, g2, g3, g4, g5, g6⟩
      · intro e he e2 he2 hv
        rw [setBlock_blocks] at he he2
        rcases mem_setSlot_iff.mp he with heq | ⟨holde, hnee⟩ <;>
          rcases mem_setSlot_iff.mp he2 with heq2 | ⟨holde2, hnee2⟩
        · rw [heq, heq2]
        · have hb1 : e2.1 = b := hvinjb e2 holde2 (by rw [← hv, heq])
          rw [heq, hb1]
        · have hb1 : e.1 = b := hvinjb e holde (by rw [hv, heq2])
          rw [heq2, hb1]
        · exact hW.vInj e holde e2 holde2 hv
      · intro hd2 hm
        obtain ⟨hnn, hss⟩ := hW.sOK hd2 hm
        refine ⟨hnn, fun b2 hb2 => ?_⟩
        obtain ⟨cb2, hcm, hp2⟩ := hss b2 hb2
        by_cases hbe : b2 = b
        · subst hbe
          have hecb : cb2 = cb := mem_nodup_unique hW.bNodup hcm hmem
          refine ⟨cbz, ?_, ?_⟩
          · rw [setBlock_blocks]
            exact mem_setSlot_iff.mpr (Or.inl rfl)
          · rw [hp2, hecb]
        · refine ⟨cb2, ?_, hp2⟩
          rw [setBlock_blocks]
          exact mem_setSlot_iff.mpr (Or.inr ⟨hcm, hbe⟩)
      · intro w2 hm b2 hb2
        obtain ⟨cb2, hcm, hp2⟩ := hW.wOK w2 (List.mem_cons_of_mem w hm) b2 hb2
        by_cases hbe : b2 = b
        · subst hbe
          have hecb : cb2 = cb := mem_nodup_unique hW.bNodup hcm hmem
          refine ⟨cbz, ?_, ?_⟩
          · rw [setBlock_blocks]
            exact mem_setSlot_iff.mpr (Or.inl rfl)
          · rw [hp2, hecb]
        · refine ⟨cb2, ?_, hp2⟩
          rw [setBlock_blocks]
          exact mem_setSlot_iff.mpr (Or.inr ⟨hcm, hbe⟩)
      · exact hW.aliveLt
      · exact hW.aliveIff
      · exact hW.vFresh
      · exact hW.vOnce
      · intro v hv
        obtain ⟨e, he, hval, hposE⟩ := hW.aliveBlock v hv
        by_cases hbe : e.1 = b
        · have he2 : (b, e.2) ∈ h.blocks := by
            rw [← hbe]
            exact he
          have hecb : e.2 = cb := mem_nodup_unique hW.bNodup he2 hmem
          refine ⟨(b, cbz), ?_, ?_, ?_⟩
          · rw [setBlock_blocks]
            exact mem_setSlot_iff.mpr (Or.inl rfl)
          · show cbz.val = v
            rw [← hval, hecb]
          · show 0 < cbz.shared_count
            rw [hecb] at hposE
            exact hposE
        · refine ⟨e, ?_, hval, hposE⟩
          rw [setBlock_blocks]
          exact mem_setSlot_iff.mpr (Or.inr ⟨he, hbe⟩)
      · intro b2 hlt2
        constructor
        · rintro ⟨cb2, hcm⟩
          rw [setBlock_blocks] at hcm
          rcases mem_setSlot_iff.mp hcm with heq | ⟨hold2, hne2⟩
          · have hb2 : b2 = b := congrArg Prod.fst heq
            rw [hb2]
            exact (hW.bLiveIff b hbLT).mp ⟨cb, hmem⟩
          · exact (hW.bLiveIff b2 hlt2).mp ⟨cb2, hold2⟩
        · intro hf
          obtain ⟨cb2, hold2⟩ := (hW.bLiveIff b2 hlt2).mpr hf
          by_cases hbe : b2 = b
          · subst hbe
            refine ⟨cbz, ?_⟩
            rw [setBlock_blocks]
            exact mem_setSlot_iff.mpr (Or.inl rfl)
          · refine ⟨cb2, ?_⟩
            rw [setBlock_blocks]
            exact mem_setSlot_iff.mpr (Or.inr ⟨hold2, hbe⟩)
      · exact hW.bFresh
      · exact hW.bOnce

theorem countS_cons_self {hd : SharedPtr} {ls : List SharedPtr} {b : Nat}
    (hb : hd.block = some b) : countS (hd :: ls) b = countS ls b + 1 := by
  rw [countS_cons]
  simp [hb]

theorem countW_cons_self {w : WeakPtr} {lw : List WeakPtr} {b : Nat}
    (hb : w.block = some b) : countW (w :: lw) b = countW lw b + 1 := by
  rw [countW_cons]
  simp [hb]

/-- Attaching one more owning handle to a live block (`++shared_count_` together
with storing the pointer pair), as done by copy construction, copy assignment
and the upgrade constructor. -/
theorem WFc_addSharedRef {h : Heap} {ls : List SharedPtr} {lw : List WeakPtr} {b : Nat}
    {cb : ControlBlock} (hW : WFc h ls lw) (hmem : (b, cb) ∈ h.blocks)
    (hpos : 0 < cb.shared_count) :
    WFc (setBlock h b { cb with shared_count := cb.shared_count + 1 })
      ({ ptr := some cb.val, block := some b } :: ls) lw := by
  obtain ⟨hbLT, hvLT, hsc, hwc, hvalive, hnz⟩ := hW.bMem (b, cb) hmem
  dsimp only at hbLT hvLT hsc hwc hvalive hnz
  have halive : h.values cb.val = true := hvalive.mpr hpos
  have hvinjb : ∀ e ∈ h.blocks, e.2.val = cb.val → e.1 = b :=
    fun e he hv => hW.vInj e he (b, cb) hmem hv
  refine ⟨?_, ?_, ?_, ?_, ?_, ?_, ?_, ?_, ?_, ?_, ?_, ?_, ?_⟩
  · show keysNodup (setBlock h b _).blocks
    rw [setBlock_blocks]
    exact keysNodup_setSlot hW.bNodup b _
  · intro e he
    rw [setBlock_blocks] at he
    rcases mem_setSlot_iff.mp he with heq | ⟨hold, hne⟩
    · rw [heq]
      refine ⟨hbLT, hvLT, ?_, ?_, ?_, ?_⟩
      · show cb.shared_count + 1 = countS ({ ptr := some cb.val, block := some b } :: ls) b
        rw [countS_cons_self rfl, hsc]
      · show cb.weak_count = countW lw b
        exact hwc
      · show (setBlock h b _).values cb.val = true ↔ 0 < cb.shared_count + 1
        rw [setBlock_values]
        exact iff_of_true halive (Nat.succ_pos _)
      · show 0 < cb.shared_count + 1 + cb.weak_count
        exact Nat.add_pos_left (Nat.succ_pos _) _
    · obtain ⟨g1, g2, g3, g4, g5, g6⟩ := hW.bMem e hold
      have hbne : ({ ptr := some cb.val, block := some b } : SharedPtr).block ≠ some e.1 := by
        exact fun hh => hne (by injection hh with hh2; exact hh2.symm)
      rw [← countS_cons_ne hbne] at g3
      exact ⟨g1, g2, g3, g4, g5, g6⟩
  · intro e he e2 he2 hv
    rw [setBlock_blocks] at he he2
    rcases mem_setSlot_iff.mp he with heq | ⟨holde, hnee⟩ <;>
      rcases mem_setSlot_iff.mp he2 with heq2 | ⟨holde2, hnee2⟩
    · rw [heq, heq2]
    · have hb1 : e2.1 = b := hvinjb e2 holde2 (by rw [← hv, heq])
      rw [heq, hb1]
    · have hb1 : e.1 = b := hvinjb e holde (by rw [hv, heq2])
      rw [heq2, hb1]
    · exact hW.vInj e holde e2 holde2 hv
  · intro hd2 hm2
    rcases List.mem_cons.mp hm2 with rfl | hm3
    · refine ⟨fun hh => Option.noConfusion hh, fun b2 hb2 => ?_⟩
      have hb2e : b2 = b := by injection hb2 with hh; exact hh.symm
      subst hb2e
      refine ⟨{ cb with shared_count := cb.shared_count + 1 }, ?_, rfl⟩
      rw [setBlock_blocks]
      exact mem_setSlot_iff.mpr (Or.inl rfl)
    · obtain ⟨hnn, hss⟩ := hW.sOK hd2 hm3
      refine ⟨hnn, fun b2 hb2 => ?_⟩
      obtain ⟨cb2, hcm, hp2⟩ := hss b2 hb2
      by_cases hbe : b2 = b
      · subst hbe
        have hecb : cb2 = cb := mem_nodup_unique hW.bNodup hcm hmem
        refine ⟨{ cb with shared_count := cb.shared_count + 1 }, ?_, ?_⟩
        · rw [setBlock_blocks]
          exact mem_setSlot_iff.mpr (Or.inl rfl)
        · rw [hp2, hecb]
      · refine ⟨cb2, ?_, hp2⟩
        rw [setBlock_blocks]
        exact mem_setSlot_iff.mpr (Or.inr ⟨hcm, hbe⟩)
  · intro w2 hm2 b2 hb2
    obtain ⟨cb2, hcm, hp2⟩ := hW.wOK w2 hm2 b2 hb2
    by_cases hbe : b2 = b
    · subst hbe
      have hecb : cb2 = cb := mem_nodup_unique hW.bNodup hcm hmem
      refine ⟨{ cb with shared_count := cb.shared_count + 1 }, ?_, ?_⟩
      · rw [setBlock_blocks]
        exact mem_setSlot_iff.mpr (Or.inl rfl)
      · rw [hp2, hecb]
    · refine ⟨cb2, ?_, hp2⟩
      rw [setBlock_blocks]
      exact mem_setSlot_iff.mpr (Or.inr ⟨hcm, hbe⟩)
  · exact hW.aliveLt
  · exact hW.aliveIff
  · exact hW.vFresh
  · exact hW.vOnce
  · intro v hv
    obtain ⟨e, he, hval, hposE⟩ := hW.aliveBlock v hv
    by_cases hbe : e.1 = b
    · refine ⟨(b, { cb with shared_count := cb.shared_count + 1 }), ?_, ?_, Nat.succ_pos _⟩
      · rw [setBlock_blocks]
        exact mem_setSlot_iff.mpr (Or.inl rfl)
      · show cb.val = v
        have he2 : (b, e.2) ∈ h.blocks := by
          rw [← hbe]
          exact he
        have hecb : e.2 = cb := mem_nodup_unique hW.bNodup he2 hmem
        rw [← hval, hecb]
    · refine ⟨e, ?_, hval, hposE⟩
      rw [setBlock_blocks]
      exact mem_setSlot_iff.mpr (Or.inr ⟨he, hbe⟩)
  · intro b2 hlt2
    constructor
    · rintro ⟨cb2, hcm⟩
      rw [setBlock_blocks] at hcm
      rcases mem_setSlot_iff.mp hcm with heq | ⟨hold2, hne2⟩
      · have hb2 : b2 = b := congrArg Prod.fst heq
        rw [hb2]
        exact (hW.bLiveIff b hbLT).mp ⟨cb, hmem⟩
      · exact (hW.bLiveIff b2 hlt2).mp ⟨cb2, hold2⟩
    · intro hf
      obtain ⟨cb2, hold2⟩ := (hW.bLiveIff b2 hlt2).mpr hf
      by_cases hbe : b2 = b
      · subst hbe
        refine ⟨{ cb with shared_count := cb.shared_count + 1 }, ?_⟩
        rw [setBlock_blocks]
        exact mem_setSlot_iff.mpr (Or.inl rfl)
      · refine ⟨cb2, ?_⟩
        rw [setBlock_blocks]
        exact mem_setSlot_iff.mpr (Or.inr ⟨hold2, hbe⟩)
  · exact hW.bFresh
  · exact hW.bOnce

/-- Attaching one more observer handle to a live block (`++weak_count_`). -/
theorem WFc_addWeakRef {h : Heap} {ls : List SharedPtr} {lw : List WeakPtr} {b : Nat}
    {cb : ControlBlock} (hW : WFc h ls lw) (hmem : (b, cb) ∈ h.blocks) :
    WFc (setBlock h b { cb with weak_count := cb.weak_count + 1 })
      ls ({ block := some b, ptr := some cb.val } :: lw) := by
  obtain ⟨hbLT, hvLT, hsc, hwc, hvalive, hnz⟩ := hW.bMem (b, cb) hmem
  dsimp only at hbLT hvLT hsc hwc hvalive hnz
  have hvinjb : ∀ e ∈ h.blocks, e.2.val = cb.val → e.1 = b :=
    fun e he hv => hW.vInj e he (b, cb) hmem hv
  refine ⟨?_, ?_, ?_, ?_, ?_, ?_, ?_, ?_, ?_, ?_, ?_, ?_, ?_⟩
  · show keysNodup (setBlock h b _).blocks
    rw [setBlock_blocks]
    exact keysNodup_setSlot hW.bNodup b _
  · intro e he
    rw [setBlock_blocks] at he
    rcases mem_setSlot_iff.mp he with heq | ⟨hold, hne⟩
    · rw [heq]
      refine ⟨hbLT, hvLT, hsc, ?_, ?_, ?_⟩
      · show cb.weak_count + 1 = countW ({ block := some b, ptr := some cb.val } :: lw) b
        rw [countW_cons_self rfl, hwc]
      · show (setBlock h b _).values cb.val = true ↔ 0 < cb.shared_count
        rw [setBlock_values]
        exact hvalive
      · show 0 < cb.shared_count + (cb.weak_count + 1)
        exact Nat.add_pos_right _ (Nat.succ_pos _)
    · obtain ⟨g1, g2, g3, g4, g5, g6⟩ := hW.bMem e hold
      have hbne : ({ block := some b, ptr := some cb.val } : WeakPtr).block ≠ some e.1 := by
        exact fun hh => hne (by injection hh with hh2; exact hh2.symm)
      rw [← countW_cons_ne hbne] at g4
      exact ⟨g1, g2, g3, g4, g5, g6⟩
  · intro e he e2 he2 hv
    rw [setBlock_blocks] at he he2
    rcases mem_setSlot_iff.mp he with heq | ⟨holde, hnee⟩ <;>
      rcases mem_setSlot_iff.mp he2 with heq2 | ⟨holde2, hnee2⟩
    · rw [heq, heq2]
    · have hb1 : e2.1 = b := hvinjb e2 holde2 (by rw [← hv, heq])
      rw [heq, hb1]
    · have hb1 : e.1 = b := hvinjb e holde (by rw [hv, heq2])
      rw [heq2, hb1]
    · exact hW.vInj e holde e2 holde2 hv
  · intro hd2 hm2
    obtain ⟨hnn, hss⟩ := hW.sOK hd2 hm2
    refine ⟨hnn, fun b2 hb2 => ?_⟩
    obtain ⟨cb2, hcm, hp2⟩ := hss b2 hb2
    by_cases hbe : b2 = b
    · subst hbe
      have hecb : cb2 = cb := mem_nodup_unique hW.bNodup hcm hmem
      refine ⟨{ cb with weak_count := cb.weak_count + 1 }, ?_, ?_⟩
      · rw [setBlock_blocks]
        exact mem_setSlot_iff.mpr (Or.inl rfl)
      · rw [hp2, hecb]
    · refine ⟨cb2, ?_, hp2⟩
      rw [setBlock_blocks]
      exact mem_setSlot_iff.mpr (Or.inr ⟨hcm, hbe⟩)
  · intro w2 hm2 b2 hb2
    rcases List.mem_cons.mp hm2 with rfl | hm3
    · have hb2e : b2 = b := by injection hb2 with hh; exact hh.symm
      subst hb2e
      refine ⟨{ cb with weak_count := cb.weak_count + 1 }, ?_, rfl⟩
      rw [setBlock_blocks]
      exact mem_setSlot_iff.mpr (Or.inl rfl)
    · obtain ⟨cb2, hcm, hp2⟩ := hW.wOK w2 hm3 b2 hb2
      by_cases hbe : b2 = b
      · subst hbe
        have hecb : cb2 = cb := mem_nodup_unique hW.bNodup hcm hmem
        refine ⟨{ cb with weak_count := cb.weak_count + 1 }, ?_, ?_⟩
        · rw [setBlock_blocks]
          exact mem_setSlot_iff.mpr (Or.inl rfl)
        · rw [hp2, hecb]
      · refine ⟨cb2, ?_, hp2⟩
        rw [setBlock_blocks]
        exact mem_setSlot_iff.mpr (Or.inr ⟨hcm, hbe⟩)
  · exact hW.aliveLt
  · exact hW.aliveIff
  · exact hW.vFresh
  · exact hW.vOnce
  · intro v hv
    obtain ⟨e, he, hval, hposE⟩ := hW.aliveBlock v hv
    by_cases hbe : e.1 = b
    · have he2 : (b, e.2) ∈ h.blocks := by
        rw [← hbe]
        exact he
      have hecb : e.2 = cb := mem_nodup_unique hW.bNodup he2 hmem
      refine ⟨(b, { cb with weak_count := cb.weak_count + 1 }), ?_, ?_, ?_⟩
      · rw [setBlock_blocks]
        exact mem_setSlot_iff.mpr (Or.inl rfl)
      · show cb.val = v
        rw [← hval, hecb]
      · show 0 < cb.shared_count
        rw [hecb] at hposE
        exact hposE
    · refine ⟨e, ?_, hval, hposE⟩
      rw [setBlock_blocks]
      exact mem_setSlot_iff.mpr (Or.inr ⟨he, hbe⟩)
  · intro b2 hlt2
    constructor
    · rintro ⟨cb2, hcm⟩
      rw [setBlock_blocks] at hcm
      rcases mem_setSlot_iff.mp hcm with heq | ⟨hold2, hne2⟩
      · have hb2 : b2 = b := congrArg Prod.fst heq
        rw [hb2]
        exact (hW.bLiveIff b hbLT).mp ⟨cb, hmem⟩
      · exact (hW.bLiveIff b2 hlt2).mp ⟨cb2, hold2⟩
    · intro hf
      obtain ⟨cb2, hold2⟩ := (hW.bLiveIff b2 hlt2).mpr hf
      by_cases hbe : b2 = b
      · subst hbe
        refine ⟨{ cb with weak_count := cb.weak_count + 1 }, ?_⟩
        rw [setBlock_blocks]
        exact mem_setSlot_iff.mpr (Or.inl rfl)
      · refine ⟨cb2, ?_⟩
        rw [setBlock_blocks]
        exact mem_setSlot_iff.mpr (Or.inr ⟨hold2, hbe⟩)
  · exact hW.bFresh
  · exact hW.bOnce

/-- Allocating a fresh value and a fresh control block with shared count 1, as
done by `SharedPtr(new std::string(...))` and by the adopting half of `Reset`. -/
theorem WFc_allocFresh {h : Heap} {ls : List SharedPtr} {lw : List WeakPtr}
    (hW : WFc h ls lw) :
    WFc (allocBlock (allocValue h).2
          { shared_count := 1, weak_count := 0, val := h.nextValue }).2
      (({ ptr := some h.nextValue, block := some h.nextBlock } : SharedPtr) :: ls) lw := by
  set v := h.nextValue with hv
  set b := h.nextBlock with hb
  have hkeys : ∀ e ∈ h.blocks, e.1 < b := fun e he => (hW.bMem e he).1
  have hvals : ∀ e ∈ h.blocks, e.2.val < v := fun e he => (hW.bMem e he).2.1
  have hbnotin : b ∉ h.blocks.map Prod.fst := by
    intro hm
    obtain ⟨e, he, hfst⟩ := List.mem_map.mp hm
    exact absurd (hkeys e he) (by rw [hfst]; exact Nat.lt_irrefl b)
  have hS0 : countS ls b = 0 := by
    refine countS_eq_zero.mpr (fun hd2 hm hbb => ?_)
    obtain ⟨cb2, hcm, -⟩ := (hW.sOK hd2 hm).2 b hbb
    exact absurd (hkeys (b, cb2) hcm) (Nat.lt_irrefl b)
  have hW0 : countW lw b = 0 := by
    refine countW_eq_zero.mpr (fun w2 hm hbb => ?_)
    obtain ⟨cb2, hcm, -⟩ := hW.wOK w2 hm b hbb
    exact absurd (hkeys (b, cb2) hcm) (Nat.lt_irrefl b)
  set cbN : ControlBlock := { shared_count := 1, weak_count := 0, val := v } with hcbN
  refine ⟨?_, ?_, ?_, ?_, ?_, ?_, ?_, ?_, ?_, ?_, ?_, ?_, ?_⟩
  · show keysNodup ((b, cbN) :: h.blocks)
    exact keysNodup_cons.mpr ⟨hbnotin, hW.bNodup⟩
  · intro e he
    rcases List.mem_cons.mp he with heq | hold
    · rw [heq]
      refine ⟨Nat.lt_succ_self b, Nat.lt_succ_self v, ?_, hW0.symm, ?_, Nat.succ_pos 0⟩
      · show (1 : Nat) = countS (_ :: ls) b
        rw [countS_cons_self rfl, hS0]
      · show (allocValue h).2.values cbN.val = true ↔ 0 < cbN.shared_count
        rw [allocValue_snd_values]
        exact iff_of_true (by rw [if_pos rfl]) (Nat.succ_pos 0)
    · obtain ⟨g1, g2, g3, g4, g5, g6⟩ := hW.bMem e hold
      have hbne : ({ ptr := some v, block := some b } : SharedPtr).block ≠ some e.1 :=
        fun hh => absurd g1 (by injection hh with hh2; rw [← hh2]; exact Nat.lt_irrefl _)
      refine ⟨Nat.lt_succ_of_lt g1, Nat.lt_succ_of_lt g2, ?_, g4, ?_, g6⟩
      · rw [countS_cons_ne hbne]
        exact g3
      · show (allocValue h).2.values e.2.val = true ↔ 0 < e.2.shared_count
        rw [allocValue_snd_values, if_neg (fun hh : e.2.val = v => absurd g2 (by rw [hh]; exact Nat.lt_irrefl v))]
        exact g5
  · intro e he e2 he2 hvv
    rcases List.mem_cons.mp he with heq | holde <;>
      rcases List.mem_cons.mp he2 with heq2 | holde2
    · rw [heq, heq2]
    · exact absurd (hvals e2 holde2) (by rw [← hvv, heq]; exact Nat.lt_irrefl v)
    · exact absurd (hvals e holde) (by rw [hvv, heq2]; exact Nat.lt_irrefl v)
    · exact hW.vInj e holde e2 holde2 hvv
  · intro hd2 hm2
    rcases List.mem_cons.mp hm2 with rfl | hm3
    · refine ⟨fun hh => Option.noConfusion hh, fun b2 hb2 => ?_⟩
      have hb2e : b2 = b := by injection hb2 with hh; exact hh.symm
      subst hb2e
      exact ⟨cbN, List.mem_cons_self _ _, rfl⟩
    · obtain ⟨hnn, hss⟩ := hW.sOK hd2 hm3
      refine ⟨hnn, fun b2 hb2 => ?_⟩
      obtain ⟨cb2, hcm, hp2⟩ := hss b2 hb2
      exact ⟨cb2, List.mem_cons_of_mem _ hcm, hp2⟩
  · intro w2 hm2 b2 hb2
    obtain ⟨cb2, hcm, hp2⟩ := hW.wOK w2 hm2 b2 hb2
    exact ⟨cb2, List.mem_cons_of_mem _ hcm, hp2⟩
  · intro x hx
    rw [show (allocBlock (allocValue h).2 cbN).2.values x = (allocValue h).2.values x from rfl,
      allocValue_snd_values] at hx
    by_cases hxv : x = v
    · rw [hxv]
      exact Nat.lt_succ_self v
    · rw [if_neg hxv] at hx
      exact Nat.lt_succ_of_lt (hW.aliveLt x hx)
  · intro x hlt
    show (allocValue h).2.values x = true ↔ h.valueFrees x = 0
    rw [allocValue_snd_values]
    by_cases hxv : x = v
    · rw [if_pos hxv, hxv]
      exact iff_of_true rfl (hW.vFresh v (Nat.le_refl v)).2
    · rw [if_neg hxv]
      exact hW.aliveIff x (Nat.lt_of_le_of_ne (Nat.lt_succ_iff.mp hlt) hxv)
  · intro x hge
    have hxv : x ≠ v := fun hh => absurd hge (by rw [hh]; exact Nat.not_le.mpr (Nat.lt_succ_self v))
    constructor
    · show (allocValue h).2.values x = false
      rw [allocValue_snd_values, if_neg hxv]
      exact (hW.vFresh x (Nat.le_of_succ_le hge)).1
    · exact (hW.vFresh x (Nat.le_of_succ_le hge)).2
  · exact hW.vOnce
  · intro x hx
    rw [show (allocBlock (allocValue h).2 cbN).2.values x = (allocValue h).2.values x from rfl,
      allocValue_snd_values] at hx
    by_cases hxv : x = v
    · subst hxv
      exact ⟨(b, cbN), List.mem_cons_self _ _, rfl, Nat.succ_pos 0⟩
    · rw [if_neg hxv] at hx
      obtain ⟨e, he, hval, hpos⟩ := hW.aliveBlock x hx
      exact ⟨e, List.mem_cons_of_mem _ he, hval, hpos⟩
  · intro b2 hlt2
    by_cases hbe : b2 = b
    · subst hbe
      exact iff_of_true ⟨cbN, List.mem_cons_self _ _⟩ (hW.bFresh b (Nat.le_refl b))
    · have hlt3 : b2 < b := Nat.lt_of_le_of_ne (Nat.lt_succ_iff.mp hlt2) hbe
      constructor
      · rintro ⟨cb2, hcm⟩
        rcases List.mem_cons.mp hcm with heq | hold2
        · exact absurd (congrArg Prod.fst heq) hbe
        · exact (hW.bLiveIff b2 hlt3).mp ⟨cb2, hold2⟩
      · intro hf
        obtain ⟨cb2, hold2⟩ := (hW.bLiveIff b2 hlt3).mpr hf
        exact ⟨cb2, List.mem_cons_of_mem _ hold2⟩
  · intro b2 hge
    exact hW.bFresh b2 (Nat.le_of_succ_le hge)
  · exact hW.bOnce

theorem WFc_sharedNewRaw {h : Heap} {ls : List SharedPtr} {lw : List WeakPtr}
    (hW : WFc h ls lw) :
    WFc (sharedFromRaw (some (allocValue h).1) (allocValue h).2).2
      ((sharedFromRaw (some (allocValue h).1) (allocValue h).2).1 :: ls) lw :=
  WFc_allocFresh hW

theorem WFc_sharedCopy {h : Heap} {ls : List SharedPtr} {lw : List WeakPtr}
    (hW : WFc h ls lw) {hd : SharedPtr} (hm : hd ∈ ls) :
    WFc (sharedCopy hd h).2 ((sharedCopy hd h).1 :: ls) lw := by
  rcases hbc : hd.block with _ | b
  · simp only [sharedCopy, hbc]
    exact WFc_addShared_noBlock hW rfl ((hW.sOK hd hm).1 hbc)
  · obtain ⟨cb, hmem, hptr⟩ := (hW.sOK hd hm).2 b hbc
    have hget : getBlock h b = some cb := getBlock_of_mem hW.bNodup hmem
    have hsc := (hW.bMem (b, cb) hmem).2.2.1
    dsimp only at hsc
    have hpos : 0 < cb.shared_count := by
      rw [hsc]
      exact countS_pos_of_mem hm hbc
    simp only [sharedCopy, hbc, hget]
    rw [hptr]
    exact WFc_addSharedRef hW hmem hpos

theorem WFc_weakCopy {h : Heap} {ls : List SharedPtr} {lw : List WeakPtr}
    (hW : WFc h ls lw) {w : WeakPtr} (hm : w ∈ lw) :
    WFc (weakCopy w h).2 ls ((weakCopy w h).1 :: lw) := by
  rcases hbc : w.block with _ | b
  · simp only [weakCopy, hbc]
    exact WFc_addWeak_noBlock hW rfl
  · obtain ⟨cb, hmem, hptr⟩ := hW.wOK w hm b hbc
    have hget : getBlock h b = some cb := getBlock_of_mem hW.bNodup hmem
    simp only [weakCopy, hbc, hget]
    rw [hptr]
    exact WFc_addWeakRef hW hmem

theorem WFc_weakFromShared {h : Heap} {ls : List SharedPtr} {lw : List WeakPtr}
    (hW : WFc h ls lw) {sp : SharedPtr} (hm : sp ∈ ls) :
    WFc (weakFromShared sp h).2 ls ((weakFromShared sp h).1 :: lw) := by
  rcases hbc : sp.block with _ | b
  · simp only [weakFromShared, hbc]
    exact WFc_addWeak_noBlock hW rfl
  · obtain ⟨cb, hmem, hptr⟩ := (hW.sOK sp hm).2 b hbc
    have hget : getBlock h b = some cb := getBlock_of_mem hW.bNodup hmem
    simp only [weakFromShared, hbc, hget]
    rw [hptr]
    exact WFc_addWeakRef hW hmem

theorem WFc_sharedFromWeak {h : Heap} {ls : List SharedPtr} {lw : List WeakPtr}
    (hW : WFc h ls lw) {w : WeakPtr} (hm : w ∈ lw) :
    WFc (sharedFromWeak w h).2 ((sharedFromWeak w h).1 :: ls) lw := by
  rcases hbc : w.block with _ | b
  · simp only [sharedFromWeak, hbc]
    exact WFc_addShared_noBlock hW rfl rfl
  · obtain ⟨cb, hmem, hptr⟩ := hW.wOK w hm b hbc
    have hget : getBlock h b = some cb := getBlock_of_mem hW.bNodup hmem
    simp only [sharedFromWeak, hbc, hget]
    by_cases hpos : 0 < cb.shared_count
    · rw [if_pos hpos]
      dsimp only
      rw [hptr]
      exact WFc_addSharedRef hW hmem hpos
    · rw [if_neg hpos]
      exact WFc_addShared_noBlock hW rfl rfl

theorem WFc_weakLock {h : Heap} {ls : List SharedPtr} {lw : List WeakPtr}
    (hW : WFc h ls lw) {w : WeakPtr} (hm : w ∈ lw) :
    WFc (weakLock w h).2 ((weakLock w h).1 :: ls) lw := by
  rcases hbc : w.block with _ | b
  · simp only [weakLock, hbc]
    exact WFc_addShared_noBlock hW rfl rfl
  · rcases hget : getBlock h b with _ | cb
    · simp only [weakLock, hbc, hget]
      exact WFc_addShared_noBlock hW rfl rfl
    · simp only [weakLock, hbc, hget]
      by_cases hpos : 0 < cb.shared_count
      · rw [if_pos hpos]
        exact WFc_sharedFromWeak hW hm
      · rw [if_neg hpos]
        exact WFc_addShared_noBlock hW rfl rfl

theorem WFc_weakNewRaw {h : Heap} {ls : List SharedPtr} {lw : List WeakPtr}
    (hW : WFc h ls lw) (p : Option Nat) :
    WFc (weakFromRaw p h).2 ls ((weakFromRaw p h).1 :: lw) :=
  WFc_addWeak_noBlock hW rfl

theorem heapExt {h1 h2 : Heap} (hb : h1.blocks = h2.blocks)
    (hnb : h1.nextBlock = h2.nextBlock) (hv : h1.values = h2.values)
    (hnv : h1.nextValue = h2.nextValue) (hvf : h1.valueFrees = h2.valueFrees)
    (hbf : h1.blockFrees = h2.blockFrees) : h1 = h2 := by
  cases h1
  cases h2
  simp_all

/-- `Reset` is `Release` followed by the raw-pointer adoption. -/
theorem sharedReset_eq (hd : SharedPtr) (p : Option Nat) (h : Heap) :
    sharedReset hd p h = sharedFromRaw p (sharedRelease hd h).2 := by
  cases p <;> rfl

/-- Releasing a handle commutes with the caller-side allocation of a fresh
value (the `new std::string(...)` argument of `Reset`), provided the released
value is not the fresh one. -/
theorem sharedRelease_allocValue_comm {hd : SharedPtr} {h : Heap}
    (hne : ∀ v, hd.ptr = some v → v ≠ h.nextValue) :
    (sharedRelease hd (allocValue h).2).2 = (allocValue (sharedRelease hd h).2).2 := by
  rcases hbc : hd.block with _ | b
  · simp only [sharedRelease, hbc]
  · have hg2 : getBlock (allocValue h).2 b = getBlock h b := rfl
    rcases hget : getBlock h b with _ | cb
    · simp only [sharedRelease, hbc, hg2, hget]
    · simp only [sharedRelease, hbc, hg2, hget]
      by_cases hz : cb.shared_count - 1 = 0
      · rw [if_pos hz, if_pos hz]
        rcases hp : hd.ptr with _ | v
        · by_cases hw : cb.weak_count = 0
          · rw [if_pos hw, if_pos hw]
            rfl
          · rw [if_neg hw, if_neg hw]
            rfl
        · have hvne : v ≠ h.nextValue := hne v hp
          by_cases hw : cb.weak_count = 0
          · rw [if_pos hw, if_pos hw]
            dsimp only
            refine heapExt rfl rfl ?_ rfl rfl rfl
            funext x
            show (if x = v then false else if x = h.nextValue then true else h.values x)
              = if x = h.nextValue then true else if x = v then false else h.values x
            by_cases hxv : x = v
            · rw [if_pos hxv, if_neg (by rw [hxv]; exact hvne), if_pos hxv]
            · rw [if_neg hxv]
              by_cases hxn : x = h.nextValue
              · rw [if_pos hxn, if_pos hxn]
              · rw [if_neg hxn, if_neg hxn, if_neg hxv]
          · rw [if_neg hw, if_neg hw]
            dsimp only
            refine heapExt rfl rfl ?_ rfl rfl rfl
            funext x
            show (if x = v then false else if x = h.nextValue then true else h.values x)
              = if x = h.nextValue then true else if x = v then false else h.values x
            by_cases hxv : x = v
            · rw [if_pos hxv, if_neg (by rw [hxv]; exact hvne), if_pos hxv]
            · rw [if_neg hxv]
              by_cases hxn : x = h.nextValue
              · rw [if_pos hxn, if_pos hxn]
              · rw [if_neg hxn, if_neg hxn, if_neg hxv]
      · rw [if_neg hz, if_neg hz]
        rfl

/-! ### Machine-level slot bookkeeping -/

theorem map_snd_setSlot {α : Type} (l : List (Nat × α)) (i : Nat) (a : α) :
    (setSlot l i a).map Prod.snd = a :: (eraseSlot l i).map Prod.snd := rfl

theorem map_snd_setSlot_fresh {α : Type} {l : List (Nat × α)} {i : Nat}
    (hnone : lookupSlot l i = none) (a : α) :
    (setSlot l i a).map Prod.snd = a :: l.map Prod.snd := by
  rw [setSlot, List.map_cons,
    eraseSlot_eq_of_not_mem (not_mem_keys_of_lookupSlot_eq_none hnone)]

theorem mem_keys_eraseSlot_sub {α : Type} {l : List (Nat × α)} {i j : Nat}
    (h : i ∈ (eraseSlot l j).map Prod.fst) : i ∈ l.map Prod.fst := by
  obtain ⟨e, he, hfst⟩ := List.mem_map.mp h
  exact List.mem_map.mpr ⟨e, (mem_eraseSlot_iff.mp he).1, hfst⟩

theorem eraseSlot_comm {α : Type} (l : List (Nat × α)) (i j : Nat) :
    eraseSlot (eraseSlot l i) j = eraseSlot (eraseSlot l j) i := by
  induction l with
  | nil => rfl
  | cons e t ih =>
    rw [eraseSlot_cons, eraseSlot_cons]
    by_cases hi : e.1 = i <;> by_cases hj : e.1 = j
    · rw [if_pos hi, if_pos hj, ih]
    · rw [if_pos hi, if_neg hj, eraseSlot_cons, if_pos hi, ih]
    · rw [if_neg hi, if_pos hj, eraseSlot_cons, if_pos hj, ih]
    · rw [if_neg hi, if_neg hj, eraseSlot_cons, if_neg hj, eraseSlot_cons, if_neg hi, ih]

theorem snd_mem_of_lookupSlot {α : Type} {l : List (Nat × α)} {i : Nat} {a : α}
    (h : lookupSlot l i = some a) : a ∈ l.map Prod.snd :=
  List.mem_map.mpr ⟨(i, a), lookupSlot_mem h, rfl⟩

theorem sharedRelease_nextValue (hd : SharedPtr) (h : Heap) :
    (sharedRelease hd h).2.nextValue = h.nextValue := by
  rcases hbc : hd.block with _ | b
  · simp [sharedRelease, hbc]
  · rcases hget : getBlock h b with _ | cb
    · simp [sharedRelease, hbc, hget]
    · simp only [sharedRelease, hbc, hget]
      by_cases hz : cb.shared_count - 1 = 0
      · rw [if_pos hz]
        by_cases hw : cb.weak_count = 0
        · rw [if_pos hw]
          simp
        · rw [if_neg hw]
          simp
      · rw [if_neg hz]
        simp

theorem WF_init : WF initMachine := by
  refine ⟨⟨?_, ?_, ?_, ?_, ?_, ?_, ?_, ?_, ?_, ?_, ?_, ?_, ?_⟩, ?_, ?_⟩
  · show keysNodup ([] : List (Nat × ControlBlock))
    exact List.nodup_nil
  · intro e he
    cases he
  · intro e he
    cases he
  · intro hd hm
    cases hm
  · intro w hm
    cases hm
  · intro v hv
    exact Bool.noConfusion hv
  · intro v hv
    exact absurd hv (Nat.not_lt_zero v)
  · intro v _
    exact ⟨rfl, rfl⟩
  · intro v
    exact Nat.zero_le 1
  · intro v hv
    exact Bool.noConfusion hv
  · intro b hb
    exact absurd hb (Nat.not_lt_zero b)
  · intro b _
    rfl
  · intro b
    exact Nat.zero_le 1
  · exact List.nodup_nil
  · exact List.nodup_nil

theorem WF_step (o : Op) (m : Machine) (hWF : WF m) : WF (step o m) := by
  obtain ⟨hWc, hns, hnw⟩ := hWF
  cases o with
  | sNewNull i =>
    rcases hl : lookupSlot m.shared i with _ | hd
    · simp only [step, hl]
      refine ⟨?_, keysNodup_setSlot hns i _, hnw⟩
      dsimp only
      rw [map_snd_setSlot_fresh hl]
      exact WFc_addShared_noBlock hWc rfl rfl
    · simp only [step, hl]
      exact ⟨hWc, hns, hnw⟩
  | sNewRaw i =>
    rcases hl : lookupSlot m.shared i with _ | hd
    · simp only [step, hl]
      refine ⟨?_, keysNodup_setSlot hns i _, hnw⟩
      dsimp only
      rw [map_snd_setSlot_fresh hl]
      exact WFc_sharedNewRaw hWc
    · simp only [step, hl]
      exact ⟨hWc, hns, hnw⟩
  | sCopy i j =>
    rcases hl1 : lookupSlot m.shared i with _ | hd <;>
      rcases hl2 : lookupSlot m.shared j with _ | src <;>
        simp only [step, hl1, hl2]
    · exact ⟨hWc, hns, hnw⟩
    · refine ⟨?_, keysNodup_setSlot hns i _, hnw⟩
      dsimp only
      rw [map_snd_setSlot_fresh hl1]
      exact WFc_sharedCopy hWc (snd_mem_of_lookupSlot hl2)
    · exact ⟨hWc, hns, hnw⟩
    · exact ⟨hWc, hns, hnw⟩
  | sMove i j =>
    rcases hl1 : lookupSlot m.shared i with _ | hd <;>
      rcases hl2 : lookupSlot m.shared j with _ | src <;>
        simp only [step, hl1, hl2]
    · exact ⟨hWc, hns, hnw⟩
    · have hij : i ≠ j := by
        intro hh
        rw [hh, hl2] at hl1
        cases hl1
      have hinotin : i ∉ (setSlot m.shared j
          ({ ptr := none, block := none } : SharedPtr)).map Prod.fst := by
        intro hm2
        rcases List.mem_cons.mp hm2 with heq | hm3
        · exact hij heq
        · exact not_mem_keys_of_lookupSlot_eq_none hl1 (mem_keys_eraseSlot_sub hm3)
      refine ⟨?_, keysNodup_setSlot (keysNodup_setSlot hns j _) i _, hnw⟩
      dsimp only [sharedMoveFields]
      rw [map_snd_setSlot, eraseSlot_eq_of_not_mem hinotin, map_snd_setSlot]
      have hper := perm_extract hns hl2
      have hWc1 := WFc_perm hWc hper (List.Perm.refl _)
      have hWc2 := @WFc_addShared_noBlock _ _ _ hWc1 { ptr := none, block := none } rfl rfl
      exact WFc_perm hWc2 (List.Perm.swap _ _ _) (List.Perm.refl _)
    · exact ⟨hWc, hns, hnw⟩
    · exact ⟨hWc, hns, hnw⟩
  | sFromWeak i w =>
    rcases hl1 : lookupSlot m.shared i with _ | hd <;>
      rcases hl2 : lookupSlot m.weak w with _ | wp <;>
        simp only [step, hl1, hl2]
    · exact ⟨hWc, hns, hnw⟩
    · refine ⟨?_, keysNodup_setSlot hns i _, hnw⟩
      dsimp only
      rw [map_snd_setSlot_fresh hl1]
      exact WFc_sharedFromWeak hWc (snd_mem_of_lookupSlot hl2)
    · exact ⟨hWc, hns, hnw⟩
    · exact ⟨hWc, hns, hnw⟩
  | sCopyAssign i j =>
    by_cases hij : i = j
    · simp only [step, if_pos hij]
      exact ⟨hWc, hns, hnw⟩
    · rcases hl1 : lookupSlot m.shared i with _ | dst <;>
        rcases hl2 : lookupSlot m.shared j with _ | src <;>
          simp only [step, if_neg hij, hl1, hl2]
      · exact ⟨hWc, hns, hnw⟩
      · exact ⟨hWc, hns, hnw⟩
      · exact ⟨hWc, hns, hnw⟩
      · refine ⟨?_, keysNodup_setSlot hns i _, hnw⟩
        dsimp only
        rw [map_snd_setSlot]
        have hper := perm_extract hns hl1
        have hWc1 := WFc_perm hWc hper (List.Perm.refl _)
        have hWc2 := WFc_sharedRelease hWc1
        have hsrc : src ∈ (eraseSlot m.shared i).map Prod.snd := by
          refine List.mem_map.mpr ⟨(j, src), ?_, rfl⟩
          exact mem_eraseSlot_iff.mpr ⟨lookupSlot_mem hl2, fun hh => hij hh.symm⟩
        exact WFc_sharedCopy hWc2 hsrc
  | sMoveAssign i j =>
    by_cases hij : i = j
    · simp only [step, if_pos hij]
      exact ⟨hWc, hns, hnw⟩
    · rcases hl1 : lookupSlot m.shared i with _ | dst <;>
        rcases hl2 : lookupSlot m.shared j with _ | src <;>
          simp only [step, if_neg hij, hl1, hl2]
      · exact ⟨hWc, hns, hnw⟩
      · exact ⟨hWc, hns, hnw⟩
      · exact ⟨hWc, hns, hnw⟩
      · refine ⟨?_, keysNodup_setSlot (keysNodup_setSlot hns j _) i _, hnw⟩
        dsimp only
        rw [map_snd_setSlot, setSlot, eraseSlot_cons]
        rw [if_neg (show ¬(j, ({ ptr := none, block := none } : SharedPtr)).1 = i from
          fun hh => hij hh.symm)]
        rw [List.map_cons, ← eraseSlot_comm]
        have hper1 := perm_extract hns hl1
        have hlj : lookupSlot (eraseSlot m.shared i) j = some src := by
          rw [lookupSlot_eraseSlot_ne (fun hh => hij hh.symm)]
          exact hl2
        have hper2 := perm_extract (keysNodup_eraseSlot hns i) hlj
        have hWc1 := WFc_perm hWc (hper1.trans (hper2.cons dst)) (List.Perm.refl _)
        have hWc2 := WFc_sharedRelease hWc1
        have hWc3 := @WFc_addShared_noBlock _ _ _ hWc2
          { ptr := none, block := none } rfl rfl
        exact WFc_perm hWc3 (List.Perm.swap _ _ _) (List.Perm.refl _)
  | sReset i =>
    rcases hl : lookupSlot m.shared i with _ | dst
    · simp only [step, hl]
      exact ⟨hWc, hns, hnw⟩
    · simp only [step, hl]
      refine ⟨?_, keysNodup_setSlot hns i _, hnw⟩
      dsimp only
      rw [map_snd_setSlot]
      have hWc1 := WFc_perm hWc (perm_extract hns hl) (List.Perm.refl _)
      have hWc2 := WFc_sharedRelease hWc1
      rw [sharedReset_eq]
      exact WFc_addShared_noBlock hWc2 rfl rfl
  | sResetRaw i =>
    rcases hl : lookupSlot m.shared i with _ | dst
    · simp only [step, hl]
      exact ⟨hWc, hns, hnw⟩
    · simp only [step, hl]
      refine ⟨?_, keysNodup_setSlot hns i _, hnw⟩
      dsimp only
      rw [map_snd_setSlot]
      have hWc1 := WFc_perm hWc (perm_extract hns hl) (List.Perm.refl _)
      have hWc2 := WFc_sharedRelease hWc1
      have hne : ∀ v, dst.ptr = some v → v ≠ m.heap.nextValue := by
        intro v hp
        have hdm : dst ∈ m.shared.map Prod.snd := snd_mem_of_lookupSlot hl
        rcases hbc : dst.block with _ | b
        · rw [(hWc.sOK dst hdm).1 hbc] at hp
          cases hp
        · obtain ⟨cb, hcm, hp2⟩ := (hWc.sOK dst hdm).2 b hbc
          rw [hp2] at hp
          injection hp with hh
          rw [← hh]
          have hlt := (hWc.bMem (b, cb) hcm).2.1
          dsimp only at hlt
          exact fun hhh => absurd hlt (by rw [hhh]; exact Nat.lt_irrefl _)
      rw [sharedReset_eq, sharedRelease_allocValue_comm hne]
      rw [allocValue_fst, ← sharedRelease_nextValue dst m.heap]
      exact WFc_allocFresh hWc2
  | sDestroy i =>
    rcases hl : lookupSlot m.shared i with _ | dst
    · simp only [step, hl]
      exact ⟨hWc, hns, hnw⟩
    · simp only [step, hl]
      refine ⟨?_, keysNodup_eraseSlot hns i, hnw⟩
      dsimp only
      have hWc1 := WFc_perm hWc (perm_extract hns hl) (List.Perm.refl _)
      exact WFc_sharedRelease hWc1
  | wNew i =>
    rcases hl : lookupSlot m.weak i with _ | w
    · simp only [step, hl]
      refine ⟨?_, hns, keysNodup_setSlot hnw i _⟩
      dsimp only
      rw [map_snd_setSlot_fresh hl]
      exact WFc_addWeak_noBlock hWc rfl
    · simp only [step, hl]
      exact ⟨hWc, hns, hnw⟩
  | wNewRaw i p =>
    rcases hl : lookupSlot m.weak i with _ | w
    · simp only [step, hl]
      refine ⟨?_, hns, keysNodup_setSlot hnw i _⟩
      dsimp only
      rw [map_snd_setSlot_fresh hl]
      exact WFc_weakNewRaw hWc p
    · simp only [step, hl]
      exact ⟨hWc, hns, hnw⟩
  | wCopy i j =>
    rcases hl1 : lookupSlot m.weak i with _ | w <;>
      rcases hl2 : lookupSlot m.weak j with _ | src <;>
        simp only [step, hl1, hl2]
    · exact ⟨hWc, hns, hnw⟩
    · refine ⟨?_, hns, keysNodup_setSlot hnw i _⟩
      dsimp only
      rw [map_snd_setSlot_fresh hl1]
      exact WFc_weakCopy hWc (snd_mem_of_lookupSlot hl2)
    · exact ⟨hWc, hns, hnw⟩
    · exact ⟨hWc, hns, hnw⟩
  | wMove i j =>
    rcases hl1 : lookupSlot m.weak i with _ | w <;>
      rcases hl2 : lookupSlot m.weak j with _ | src <;>
        simp only [step, hl1, hl2]
    · exact ⟨hWc, hns, hnw⟩
    · have hij : i ≠ j := by
        intro hh
        rw [hh, hl2] at hl1
        cases hl1
      have hinotin : i ∉ (setSlot m.weak j
          ({ block := none, ptr := none } : WeakPtr)).map Prod.fst := by
        intro hm2
        rcases List.mem_cons.mp hm2 with heq | hm3
        · exact hij heq
        · exact not_mem_keys_of_lookupSlot_eq_none hl1 (mem_keys_eraseSlot_sub hm3)
      refine ⟨?_, hns, keysNodup_setSlot (keysNodup_setSlot hnw j _) i _⟩
      dsimp only [weakMoveFields]
      rw [map_snd_setSlot, eraseSlot_eq_of_not_mem hinotin, map_snd_setSlot]
      have hWc1 := WFc_perm hWc (List.Perm.refl _) (perm_extract hnw hl2)
      have hWc2 := @WFc_addWeak_noBlock _ _ _ hWc1 { block := none, ptr := none } rfl
      exact WFc_perm hWc2 (List.Perm.refl _) (List.Perm.swap _ _ _)
    · exact ⟨hWc, hns, hnw⟩
    · exact ⟨hWc, hns, hnw⟩
  | wFromShared i j =>
    rcases hl1 : lookupSlot m.weak i with _ | w <;>
      rcases hl2 : lookupSlot m.shared j with _ | sp <;>
        simp only [step, hl1, hl2]
    · exact ⟨hWc, hns, hnw⟩
    · refine ⟨?_, hns, keysNodup_setSlot hnw i _⟩
      dsimp only
      rw [map_snd_setSlot_fresh hl1]
      exact WFc_weakFromShared hWc (snd_mem_of_lookupSlot hl2)
    · exact ⟨hWc, hns, hnw⟩
    · exact ⟨hWc, hns, hnw⟩
  | wCopyAssign i j =>
    by_cases hij : i = j
    · simp only [step, if_pos hij]
      exact ⟨hWc, hns, hnw⟩
    · rcases hl1 : lookupSlot m.weak i with _ | dst <;>
        rcases hl2 : lookupSlot m.weak j with _ | src <;>
          simp only [step, if_neg hij, hl1, hl2]
      · exact ⟨hWc, hns, hnw⟩
      · exact ⟨hWc, hns, hnw⟩
      · exact ⟨hWc, hns, hnw⟩
      · refine ⟨?_, hns, keysNodup_setSlot hnw i _⟩
        dsimp only
        rw [map_snd_setSlot]
        have hWc1 := WFc_perm hWc (List.Perm.refl _) (perm_extract hnw hl1)
        have hWc2 := WFc_weakRelease hWc1
        have hsrc : src ∈ (eraseSlot m.weak i).map Prod.snd := by
          refine List.mem_map.mpr ⟨(j, src), ?_, rfl⟩
          exact mem_eraseSlot_iff.mpr ⟨lookupSlot_mem hl2, fun hh => hij hh.symm⟩
        exact WFc_weakCopy hWc2 hsrc
  | wMoveAssign i j =>
    by_cases hij : i = j
    · simp only [step, if_pos hij]
      exact ⟨hWc, hns, hnw⟩
    · rcases hl1 : lookupSlot m.weak i with _ | dst <;>
        rcases hl2 : lookupSlot m.weak j with _ | src <;>
          simp only [step, if_neg hij, hl1, hl2]
      · exact ⟨hWc, hns, hnw⟩
      · exact ⟨hWc, hns, hnw⟩
      · exact ⟨hWc, hns, hnw⟩
      · refine ⟨?_, hns, keysNodup_setSlot (keysNodup_setSlot hnw j _) i _⟩
        dsimp only
        rw [map_snd_setSlot, setSlot, eraseSlot_cons]
        rw [if_neg (show ¬(j, ({ block := none, ptr := none } : WeakPtr)).1 = i from
          fun hh => hij hh.symm)]
        rw [List.map_cons, ← eraseSlot_comm]
        have hlj : lookupSlot (eraseSlot m.weak i) j = some src := by
          rw [lookupSlot_eraseSlot_ne (fun hh => hij hh.symm)]
          exact hl2
        have hper2 := perm_extract (keysNodup_eraseSlot hnw i) hlj
        have hWc1 := WFc_perm hWc (List.Perm.refl _)
          ((perm_extract hnw hl1).trans (hper2.cons dst))
        have hWc2 := WFc_weakRelease hWc1
        have hWc3 := @WFc_addWeak_noBlock _ _ _ hWc2 { block := none, ptr := none } rfl
        exact WFc_perm hWc3 (List.Perm.refl _) (List.Perm.swap _ _ _)
  | wDestroy i =>
    rcases hl : lookupSlot m.weak i with _ | dst
    · simp only [step, hl]
      exact ⟨hWc, hns, hnw⟩
    · simp only [step, hl]
      refine ⟨?_, hns, keysNodup_eraseSlot hnw i⟩
      dsimp only
      have hWc1 := WFc_perm hWc (List.Perm.refl _) (perm_extract hnw hl)
      exact WFc_weakRelease hWc1
  | wLock i w =>
    rcases hl1 : lookupSlot m.shared i with _ | hd <;>
      rcases hl2 : lookupSlot m.weak w with _ | wp <;>
        simp only [step, hl1, hl2]
    · exact ⟨hWc, hns, hnw⟩
    · refine ⟨?_, keysNodup_setSlot hns i _, hnw⟩
      dsimp only
      rw [map_snd_setSlot_fresh hl1]
      exact WFc_weakLock hWc (snd_mem_of_lookupSlot hl2)
    · exact ⟨hWc, hns, hnw⟩
    · exact ⟨hWc, hns, hnw⟩

theorem run_append (ops : List Op) (o : Op) : run (ops ++ [o]) = step o (run ops) := by
  simp [run, List.foldl_append]

theorem WF_run (ops : List Op) : WF (run ops) := by
  suffices hgen : ∀ l m, WF m → WF (List.foldl (fun m2 o => step o m2) m l) from
    hgen ops initMachine WF_init
  intro l
  induction l with
  | nil => exact fun m hm => hm
  | cons o t ih =>
    intro m hm
    rw [List.foldl_cons]
    exact ih _ (WF_step o m hm)

/-! ### What one step can do to the ghost delete counters -/

theorem sharedCopy_frame (other : SharedPtr) (h : Heap) :
    (sharedCopy other h).2.valueFrees = h.valueFrees ∧
    (sharedCopy other h).2.blockFrees = h.blockFrees ∧
    (sharedCopy other h).2.nextValue = h.nextValue ∧
    (sharedCopy other h).2.nextBlock = h.nextBlock := by
  rcases hbc : other.block with _ | b
  · simp [sharedCopy, hbc]
  · rcases hget : getBlock h b with _ | cb <;> simp [sharedCopy, hbc, hget]

theorem sharedFromWeak_frame (w : WeakPtr) (h : Heap) :
    (sharedFromWeak w h).2.valueFrees = h.valueFrees ∧
    (sharedFromWeak w h).2.blockFrees = h.blockFrees ∧
    (sharedFromWeak w h).2.nextValue = h.nextValue ∧
    (sharedFromWeak w h).2.nextBlock = h.nextBlock := by
  rcases hbc : w.block with _ | b
  · simp [sharedFromWeak, hbc]
  · rcases hget : getBlock h b with _ | cb
    · simp [sharedFromWeak, hbc, hget]
    · by_cases hpos : 0 < cb.shared_count <;>
        simp [sharedFromWeak, hbc, hget, hpos]

theorem weakLock_frame (w : WeakPtr) (h : Heap) :
    (weakLock w h).2.valueFrees = h.valueFrees ∧
    (weakLock w h).2.blockFrees = h.blockFrees ∧
    (weakLock w h).2.nextValue = h.nextValue ∧
    (weakLock w h).2.nextBlock = h.nextBlock := by
  rcases hbc : w.block with _ | b
  · simp [weakLock, hbc]
  · rcases hget : getBlock h b with _ | cb
    · simp [weakLock, hbc, hget]
    · by_cases hpos : 0 < cb.shared_count
      · simp only [weakLock, hbc, hget, if_pos hpos]
        exact sharedFromWeak_frame w h
      · simp [weakLock, hbc, hget, hpos]

theorem weakCopy_frame (other : WeakPtr) (h : Heap) :
    (weakCopy other h).2.valueFrees = h.valueFrees ∧
    (weakCopy other h).2.blockFrees = h.blockFrees ∧
    (weakCopy other h).2.nextValue = h.nextValue ∧
    (weakCopy other h).2.nextBlock = h.nextBlock := by
  rcases hbc : other.block with _ | b
  · simp [weakCopy, hbc]
  · rcases hget : getBlock h b with _ | cb <;> simp [weakCopy, hbc, hget]

theorem weakFromShared_frame (sp : SharedPtr) (h : Heap) :
    (weakFromShared sp h).2.valueFrees = h.valueFrees ∧
    (weakFromShared sp h).2.blockFrees = h.blockFrees ∧
    (weakFromShared sp h).2.nextValue = h.nextValue ∧
    (weakFromShared sp h).2.nextBlock = h.nextBlock := by
  rcases hbc : sp.block with _ | b
  · simp [weakFromShared, hbc]
  · rcases hget : getBlock h b with _ | cb <;> simp [weakFromShared, hbc, hget]

theorem sharedFromRaw_frame (p : Option Nat) (h : Heap) :
    (sharedFromRaw p h).2.valueFrees = h.valueFrees ∧
    (sharedFromRaw p h).2.blockFrees = h.blockFrees ∧
    (sharedFromRaw p h).2.nextValue = h.nextValue ∧
    h.nextBlock ≤ (sharedFromRaw p h).2.nextBlock := by
  cases p <;> simp [sharedFromRaw]

/-- Precondition under which `SharedPtr::Release` is analysed: the handle's
block pointer, when set and live, carries the handle's own value and a
positive shared count.  Every slot of a well-formed machine satisfies it. -/
theorem sharedRelease_hOK {m : Machine}
    (hWc : WFc m.heap (m.shared.map Prod.snd) (m.weak.map Prod.snd))
    {i : Nat} {dst : SharedPtr} (hl : lookupSlot m.shared i = some dst) :
    ∀ b cb, dst.block = some b → getBlock m.heap b = some cb →
      dst.ptr = some cb.val ∧ 1 ≤ cb.shared_count := by
  intro b cb hbc hget
  have hdm : dst ∈ m.shared.map Prod.snd := snd_mem_of_lookupSlot hl
  obtain ⟨cb2, hcm, hp2⟩ := (hWc.sOK dst hdm).2 b hbc
  have heq : cb2 = cb := by
    have hg2 := getBlock_of_mem hWc.bNodup hcm
    rw [hget] at hg2
    injection hg2 with hh
    exact hh.symm
  subst heq
  refine ⟨hp2, ?_⟩
  have hsc := (hWc.bMem (b, cb2) hcm).2.2.1
  dsimp only at hsc
  rw [hsc]
  exact countS_pos_of_mem hdm hbc

theorem sharedRelease_events {hd : SharedPtr} {h : Heap}
    (hOK : ∀ b cb, hd.block = some b → getBlock h b = some cb →
      hd.ptr = some cb.val ∧ 1 ≤ cb.shared_count) :
    (∀ v, (sharedRelease hd h).2.valueFrees v = h.valueFrees v ∨
      ((sharedRelease hd h).2.valueFrees v = h.valueFrees v + 1 ∧
        ∃ b cb, (b, cb) ∈ h.blocks ∧ cb.val = v ∧ cb.shared_count = 1)) ∧
    (∀ b, (sharedRelease hd h).2.blockFrees b = h.blockFrees b ∨
      ((sharedRelease hd h).2.blockFrees b = h.blockFrees b + 1 ∧
        ∃ cb, (b, cb) ∈ h.blocks)) ∧
    (sharedRelease hd h).2.nextValue = h.nextValue ∧
    (sharedRelease hd h).2.nextBlock = h.nextBlock := by
  rcases hbc : hd.block with _ | b
  · have hrel : (sharedRelease hd h).2 = h := by simp [sharedRelease, hbc]
    rw [hrel]
    exact ⟨fun v => Or.inl rfl, fun b => Or.inl rfl, rfl, rfl⟩
  · rcases hget : getBlock h b with _ | cb
    · have hrel : (sharedRelease hd h).2 = h := by simp [sharedRelease, hbc, hget]
      rw [hrel]
      exact ⟨fun v => Or.inl rfl, fun b2 => Or.inl rfl, rfl, rfl⟩
    · obtain ⟨hptr, hge⟩ := hOK b cb hbc hget
      simp only [sharedRelease, hbc, hget, hptr]
      by_cases hz : cb.shared_count - 1 = 0
      · have hs1 : cb.shared_count = 1 :=
          Nat.le_antisymm (Nat.sub_eq_zero_iff_le.mp hz) hge
        rw [if_pos hz]
        by_cases hw : cb.weak_count = 0
        · rw [if_pos hw]
          dsimp only
          refine ⟨?_, ?_, rfl, rfl⟩
          · intro v
            rw [show (freeBlock (freeValue (setBlock h b _) (some cb.val)) b).valueFrees v
                = (freeValue (setBlock h b _) (some cb.val)).valueFrees v from rfl,
              freeValue_valueFrees_some, setBlock_valueFrees]
            by_cases hvv : v = cb.val
            · rw [if_pos hvv]
              exact Or.inr ⟨rfl, b, cb, getBlock_mem hget, hvv.symm, hs1⟩
            · rw [if_neg hvv]
              exact Or.inl rfl
          · intro b2
            rw [freeBlock_blockFrees]
            by_cases hbe : b2 = b
            · rw [if_pos hbe]
              exact Or.inr ⟨by rw [freeValue_blockFrees, setBlock_blockFrees],
                (by rw [hbe]; exact ⟨cb, getBlock_mem hget⟩)⟩
            · rw [if_neg hbe, freeValue_blockFrees, setBlock_blockFrees]
              exact Or.inl rfl
        · rw [if_neg hw]
          dsimp only
          refine ⟨?_, fun b2 => Or.inl (by rw [freeValue_blockFrees, setBlock_blockFrees]), ?_, ?_⟩
          · intro v
            rw [freeValue_valueFrees_some, setBlock_valueFrees]
            by_cases hvv : v = cb.val
            · rw [if_pos hvv]
              exact Or.inr ⟨rfl, b, cb, getBlock_mem hget, hvv.symm, hs1⟩
            · rw [if_neg hvv]
              exact Or.inl rfl
          · simp
          · simp
      · rw [if_neg hz]
        dsimp only
        exact ⟨fun v => Or.inl (by rw [setBlock_valueFrees]),
          fun b2 => Or.inl (by rw [setBlock_blockFrees]), by simp, by simp⟩

theorem weakRelease_events (w : WeakPtr) (h : Heap) :
    (∀ v, (weakRelease w h).2.valueFrees v = h.valueFrees v) ∧
    (∀ b, (weakRelease w h).2.blockFrees b = h.blockFrees b ∨
      ((weakRelease w h).2.blockFrees b = h.blockFrees b + 1 ∧
        ∃ cb, (b, cb) ∈ h.blocks)) ∧
    (weakRelease w h).2.nextValue = h.nextValue ∧
    (weakRelease w h).2.nextBlock = h.nextBlock := by
  rcases hbc : w.block with _ | b
  · have hrel : (weakRelease w h).2 = h := by simp [weakRelease, hbc]
    rw [hrel]
    exact ⟨fun v => rfl, fun b => Or.inl rfl, rfl, rfl⟩
  · rcases hget : getBlock h b with _ | cb
    · have hrel : (weakRelease w h).2 = h := by simp [weakRelease, hbc, hget]
      rw [hrel]
      exact ⟨fun v => rfl, fun b2 => Or.inl rfl, rfl, rfl⟩
    · simp only [weakRelease, hbc, hget]
      by_cases hcond : cb.weak_count - 1 = 0 ∧ cb.shared_count = 0
      · rw [if_pos hcond]
        dsimp only
        refine ⟨fun v => by rw [freeBlock_valueFrees, setBlock_valueFrees], ?_, by simp, by simp⟩
        intro b2
        rw [freeBlock_blockFrees]
        by_cases hbe : b2 = b
        · rw [if_pos hbe]
          exact Or.inr ⟨by rw [setBlock_blockFrees],
            (by rw [hbe]; exact ⟨cb, getBlock_mem hget⟩)⟩
        · rw [if_neg hbe, setBlock_blockFrees]
          exact Or.inl rfl
      · rw [if_neg hcond]
        dsimp only
        exact ⟨fun v => by rw [setBlock_valueFrees],
          fun b2 => Or.inl (by rw [setBlock_blockFrees]), by simp, by simp⟩

/-- In one step, each value's delete counter either stays or increases by one,
the latter exactly in a release that found the strong count at 1; each block's
delete counter either stays or increases by one, the latter only for a block
that was live; the allocation cursors never decrease. -/
theorem step_events (o : Op) (m : Machine) (hWF : WF m) :
    (∀ v, (step o m).heap.valueFrees v = m.heap.valueFrees v ∨
      ((step o m).heap.valueFrees v = m.heap.valueFrees v + 1 ∧
        ∃ b cb, (b, cb) ∈ m.heap.blocks ∧ cb.val = v ∧ cb.shared_count = 1)) ∧
    (∀ b, (step o m).heap.blockFrees b = m.heap.blockFrees b ∨
      ((step o m).heap.blockFrees b = m.heap.blockFrees b + 1 ∧
        ∃ cb, (b, cb) ∈ m.heap.blocks)) ∧
    m.heap.nextValue ≤ (step o m).heap.nextValue ∧
    m.heap.nextBlock ≤ (step o m).heap.nextBlock := by
  obtain ⟨hWc, hns, hnw⟩ := hWF
  cases o with
  | sNewNull i =>
    rcases hl : lookupSlot m.shared i with _ | hd
    · have hh : (step (Op.sNewNull i) m).heap = m.heap := by simp [step, hl, sharedFromRaw]
      rw [hh]
      exact ⟨fun v => Or.inl rfl, fun b => Or.inl rfl, Nat.le_refl _, Nat.le_refl _⟩
    · have hh : (step (Op.sNewNull i) m).heap = m.heap := by simp [step, hl]
      rw [hh]
      exact ⟨fun v => Or.inl rfl, fun b => Or.inl rfl, Nat.le_refl _, Nat.le_refl _⟩
  | sNewRaw i =>
    rcases hl : lookupSlot m.shared i with _ | hd
    · have hh : (step (Op.sNewRaw i) m).heap
          = (sharedFromRaw (some (allocValue m.heap).1) (allocValue m.heap).2).2 := by
        simp [step, hl]
      rw [hh]
      have hf := sharedFromRaw_frame (some (allocValue m.heap).1) (allocValue m.heap).2
      refine ⟨fun v => Or.inl (congrFun hf.1 v), fun b => Or.inl (congrFun hf.2.1 b), ?_, ?_⟩
      · exact le_of_le_of_eq (Nat.le_succ _) hf.2.2.1.symm
      · exact le_of_eq_of_le rfl hf.2.2.2
    · have hh : (step (Op.sNewRaw i) m).heap = m.heap := by simp [step, hl]
      rw [hh]
      exact ⟨fun v => Or.inl rfl, fun b => Or.inl rfl, Nat.le_refl _, Nat.le_refl _⟩
  | sCopy i j =>
    rcases hl1 : lookupSlot m.shared i with _ | hd <;>
      rcases hl2 : lookupSlot m.shared j with _ | src
    · have hh : (step (Op.sCopy i j) m).heap = m.heap := by simp [step, hl1, hl2]
      rw [hh]
      exact ⟨fun v => Or.inl rfl, fun b => Or.inl rfl, Nat.le_refl _, Nat.le_refl _⟩
    · have hh : (step (Op.sCopy i j) m).heap = (sharedCopy src m.heap).2 := by
        simp [step, hl1, hl2]
      rw [hh]
      have hf := sharedCopy_frame src m.heap
      exact ⟨fun v => Or.inl (congrFun hf.1 v), fun b => Or.inl (congrFun hf.2.1 b),
        le_of_eq hf.2.2.1.symm, le_of_eq hf.2.2.2.symm⟩
    · have hh : (step (Op.sCopy i j) m).heap = m.heap := by simp [step, hl1, hl2]
      rw [hh]
      exact ⟨fun v => Or.inl rfl, fun b => Or.inl rfl, Nat.le_refl _, Nat.le_refl _⟩
    · have hh : (step (Op.sCopy i j) m).heap = m.heap := by simp [step, hl1, hl2]
      rw [hh]
      exact ⟨fun v => Or.inl rfl, fun b => Or.inl rfl, Nat.le_refl _, Nat.le_refl _⟩
  | sMove i j =>
    rcases hl1 : lookupSlot m.shared i with _ | hd <;>
      rcases hl2 : lookupSlot m.shared j with _ | src <;>
    · have hh : (step (Op.sMove i j) m).heap = m.heap := by simp [step, hl1, hl2]
      rw [hh]
      exact ⟨fun v => Or.inl rfl, fun b => Or.inl rfl, Nat.le_refl _, Nat.le_refl _⟩
  | sFromWeak i w =>
    rcases hl1 : lookupSlot m.shared i with _ | hd <;>
      rcases hl2 : lookupSlot m.weak w with _ | wp
    · have hh : (step (Op.sFromWeak i w) m).heap = m.heap := by simp [step, hl1, hl2]
      rw [hh]
      exact ⟨fun v => Or.inl rfl, fun b => Or.inl rfl, Nat.le_refl _, Nat.le_refl _⟩
    · have hh : (step (Op.sFromWeak i w) m).heap = (sharedFromWeak wp m.heap).2 := by
        simp [step, hl1, hl2]
      rw [hh]
      have hf := sharedFromWeak_frame wp m.heap
      exact ⟨fun v => Or.inl (congrFun hf.1 v), fun b => Or.inl (congrFun hf.2.1 b),
        le_of_eq hf.2.2.1.symm, le_of_eq hf.2.2.2.symm⟩
    · have hh : (step (Op.sFromWeak i w) m).heap = m.heap := by simp [step, hl1, hl2]
      rw [hh]
      exact ⟨fun v => Or.inl rfl, fun b => Or.inl rfl, Nat.le_refl _, Nat.le_refl _⟩
    · have hh : (step (Op.sFromWeak i w) m).heap = m.heap := by simp [step, hl1, hl2]
      rw [hh]
      exact ⟨fun v => Or.inl rfl, fun b => Or.inl rfl, Nat.le_refl _, Nat.le_refl _⟩
  | sCopyAssign i j =>
    by_cases hij : i = j
    · have hh : (step (Op.sCopyAssign i j) m).heap = m.heap := by simp [step, if_pos hij]
      rw [hh]
      exact ⟨fun v => Or.inl rfl, fun b => Or.inl rfl, Nat.le_refl _, Nat.le_refl _⟩
    · rcases hl1 : lookupSlot m.shared i with _ | dst <;>
        rcases hl2 : lookupSlot m.shared j with _ | src
      · have hh : (step (Op.sCopyAssign i j) m).heap = m.heap := by
          simp [step, if_neg hij, hl1, hl2]
        rw [hh]
        exact ⟨fun v => Or.inl rfl, fun b => Or.inl rfl, Nat.le_refl _, Nat.le_refl _⟩
      · have hh : (step (Op.sCopyAssign i j) m).heap = m.heap := by
          simp [step, if_neg hij, hl1, hl2]
        rw [hh]
        exact ⟨fun v => Or.inl rfl, fun b => Or.inl rfl, Nat.le_refl _, Nat.le_refl _⟩
      · have hh : (step (Op.sCopyAssign i j) m).heap = m.heap := by
          simp [step, if_neg hij, hl1, hl2]
        rw [hh]
        exact ⟨fun v => Or.inl rfl, fun b => Or.inl rfl, Nat.le_refl _, Nat.le_refl _⟩
      · have hh : (step (Op.sCopyAssign i j) m).heap
            = (sharedCopy src (sharedRelease dst m.heap).2).2 := by
          simp [step, if_neg hij, hl1, hl2]
        rw [hh]
        have hrel := sharedRelease_events (sharedRelease_hOK hWc hl1)
        have hcf := sharedCopy_frame src (sharedRelease dst m.heap).2
        refine ⟨?_, ?_, ?_, ?_⟩
        · intro v
          rcases hrel.1 v with he | ⟨he, hex⟩
          · exact Or.inl ((congrFun hcf.1 v).trans he)
          · exact Or.inr ⟨(congrFun hcf.1 v).trans he, hex⟩
        · intro b
          rcases hrel.2.1 b with he | ⟨he, hex⟩
          · exact Or.inl ((congrFun hcf.2.1 b).trans he)
          · exact Or.inr ⟨(congrFun hcf.2.1 b).trans he, hex⟩
        · exact le_of_eq (hcf.2.2.1.trans hrel.2.2.1).symm
        · exact le_of_eq (hcf.2.2.2.trans hrel.2.2.2).symm
  | sMoveAssign i j =>
    by_cases hij : i = j
    · have hh : (step (Op.sMoveAssign i j) m).heap = m.heap := by simp [step, if_pos hij]
      rw [hh]
      exact ⟨fun v => Or.inl rfl, fun b => Or.inl rfl, Nat.le_refl _, Nat.le_refl _⟩
    · rcases hl1 : lookupSlot m.shared i with _ | dst <;>
        rcases hl2 : lookupSlot m.shared j with _ | src
      · have hh : (step (Op.sMoveAssign i j) m).heap = m.heap := by
          simp [step, if_neg hij, hl1, hl2]
        rw [hh]
        exact ⟨fun v => Or.inl rfl, fun b => Or.inl rfl, Nat.le_refl _, Nat.le_refl _⟩
      · have hh : (step (Op.sMoveAssign i j) m).heap = m.heap := by
          simp [step, if_neg hij, hl1, hl2]
        rw [hh]
        exact ⟨fun v => Or.inl rfl, fun b => Or.inl rfl, Nat.le_refl _, Nat.le_refl _⟩
      · have hh : (step (Op.sMoveAssign i j) m).heap = m.heap := by
          simp [step, if_neg hij, hl1, hl2]
        rw [hh]
        exact ⟨fun v => Or.inl rfl, fun b => Or.inl rfl, Nat.le_refl _, Nat.le_refl _⟩
      · have hh : (step (Op.sMoveAssign i j) m).heap = (sharedRelease dst m.heap).2 := by
          simp [step, if_neg hij, hl1, hl2]
        rw [hh]
        have hrel := sharedRelease_events (sharedRelease_hOK hWc hl1)
        exact ⟨hrel.1, hrel.2.1, le_of_eq hrel.2.2.1.symm, le_of_eq hrel.2.2.2.symm⟩
  | sReset i =>
    rcases hl : lookupSlot m.shared i with _ | dst
    · have hh : (step (Op.sReset i) m).heap = m.heap := by simp [step, hl]
      rw [hh]
      exact ⟨fun v => Or.inl rfl, fun b => Or.inl rfl, Nat.le_refl _, Nat.le_refl _⟩
    · have hh : (step (Op.sReset i) m).heap = (sharedRelease dst m.heap).2 := by
        simp [step, hl, sharedReset]
      rw [hh]
      have hrel := sharedRelease_events (sharedRelease_hOK hWc hl)
      exact ⟨hrel.1, hrel.2.1, le_of_eq hrel.2.2.1.symm, le_of_eq hrel.2.2.2.symm⟩
  | sResetRaw i =>
    rcases hl : lookupSlot m.shared i with _ | dst
    · have hh : (step (Op.sResetRaw i) m).heap = m.heap := by simp [step, hl]
      rw [hh]
      exact ⟨fun v => Or.inl rfl, fun b => Or.inl rfl, Nat.le_refl _, Nat.le_refl _⟩
    · have hh : (step (Op.sResetRaw i) m).heap
          = (allocBlock (sharedRelease dst (allocValue m.heap).2).2
              { shared_count := 1, weak_count := 0, val := (allocValue m.heap).1 }).2 := by
        simp [step, hl, sharedReset]
      rw [hh]
      have hrel := @sharedRelease_events dst (allocValue m.heap).2
        (fun b cb hbc hget => sharedRelease_hOK hWc hl b cb hbc hget)
      refine ⟨fun v => hrel.1 v, fun b => hrel.2.1 b, ?_, ?_⟩
      · have hnv : (sharedRelease dst (allocValue m.heap).2).2.nextValue
            = m.heap.nextValue + 1 := hrel.2.2.1
        exact le_of_le_of_eq (Nat.le_succ _) hnv.symm
      · have hnb : (sharedRelease dst (allocValue m.heap).2).2.nextBlock
            = m.heap.nextBlock := hrel.2.2.2
        exact le_of_eq_of_le hnb.symm (Nat.le_succ _)
  | sDestroy i =>
    rcases hl : lookupSlot m.shared i with _ | dst
    · have hh : (step (Op.sDestroy i) m).heap = m.heap := by simp [step, hl]
      rw [hh]
      exact ⟨fun v => Or.inl rfl, fun b => Or.inl rfl, Nat.le_refl _, Nat.le_refl _⟩
    · have hh : (step (Op.sDestroy i) m).heap = (sharedRelease dst m.heap).2 := by
        simp [step, hl]
      rw [hh]
      have hrel := sharedRelease_events (sharedRelease_hOK hWc hl)
      exact ⟨hrel.1, hrel.2.1, le_of_eq hrel.2.2.1.symm, le_of_eq hrel.2.2.2.symm⟩
  | wNew i =>
    rcases hl : lookupSlot m.weak i with _ | w <;>
    · have hh : (step (Op.wNew i) m).heap = m.heap := by simp [step, hl]
      rw [hh]
      exact ⟨fun v => Or.inl rfl, fun b => Or.inl rfl, Nat.le_refl _, Nat.le_refl _⟩
  | wNewRaw i p =>
    rcases hl : lookupSlot m.weak i with _ | w <;>
    · have hh : (step (Op.wNewRaw i p) m).heap = m.heap := by simp [step, hl, weakFromRaw]
      rw [hh]
      exact ⟨fun v => Or.inl rfl, fun b => Or.inl rfl, Nat.le_refl _, Nat.le_refl _⟩
  | wCopy i j =>
    rcases hl1 : lookupSlot m.weak i with _ | w <;>
      rcases hl2 : lookupSlot m.weak j with _ | src
    · have hh : (step (Op.wCopy i j) m).heap = m.heap := by simp [step, hl1, hl2]
      rw [hh]
      exact ⟨fun v => Or.inl rfl, fun b => Or.inl rfl, Nat.le_refl _, Nat.le_refl _⟩
    · have hh : (step (Op.wCopy i j) m).heap = (weakCopy src m.heap).2 := by
        simp [step, hl1, hl2]
      rw [hh]
      have hf := weakCopy_frame src m.heap
      exact ⟨fun v => Or.inl (congrFun hf.1 v), fun b => Or.inl (congrFun hf.2.1 b),
        le_of_eq hf.2.2.1.symm, le_of_eq hf.2.2.2.symm⟩
    · have hh : (step (Op.wCopy i j) m).heap = m.heap := by simp [step, hl1, hl2]
      rw [hh]
      exact ⟨fun v => Or.inl rfl, fun b => Or.inl rfl, Nat.le_refl _, Nat.le_refl _⟩
    · have hh : (step (Op.wCopy i j) m).heap = m.heap := by simp [step, hl1, hl2]
      rw [hh]
      exact ⟨fun v => Or.inl rfl, fun b => Or.inl rfl, Nat.le_refl _, Nat.le_refl _⟩
  | wMove i j =>
    rcases hl1 : lookupSlot m.weak i with _ | w <;>
      rcases hl2 : lookupSlot m.weak j with _ | src <;>
    · have hh : (step (Op.wMove i j) m).heap = m.heap := by simp [step, hl1, hl2]
      rw [hh]
      exact ⟨fun v => Or.inl rfl, fun b => Or.inl rfl, Nat.le_refl _, Nat.le_refl _⟩
  | wFromShared i j =>
    rcases hl1 : lookupSlot m.weak i with _ | w <;>
      rcases hl2 : lookupSlot m.shared j with _ | sp
    · have hh : (step (Op.wFromShared i j) m).heap = m.heap := by simp [step, hl1, hl2]
      rw [hh]
      exact ⟨fun v => Or.inl rfl, fun b => Or.inl rfl, Nat.le_refl _, Nat.le_refl _⟩
    · have hh : (step (Op.wFromShared i j) m).heap = (weakFromShared sp m.heap).2 := by
        simp [step, hl1, hl2]
      rw [hh]
      have hf := weakFromShared_frame sp m.heap
      exact ⟨fun v => Or.inl (congrFun hf.1 v), fun b => Or.inl (congrFun hf.2.1 b),
        le_of_eq hf.2.2.1.symm, le_of_eq hf.2.2.2.symm⟩
    · have hh : (step (Op.wFromShared i j) m).heap = m.heap := by simp [step, hl1, hl2]
      rw [hh]
      exact ⟨fun v => Or.inl rfl, fun b => Or.inl rfl, Nat.le_refl _, Nat.le_refl _⟩
    · have hh : (step (Op.wFromShared i j) m).heap = m.heap := by simp [step, hl1, hl2]
      rw [hh]
      exact ⟨fun v => Or.inl rfl, fun b => Or.inl rfl, Nat.le_refl _, Nat.le_refl _⟩
  | wCopyAssign i j =>
    by_cases hij : i = j
    · have hh : (step (Op.wCopyAssign i j) m).heap = m.heap := by simp [step, if_pos hij]
      rw [hh]
      exact ⟨fun v => Or.inl rfl, fun b => Or.inl rfl, Nat.le_refl _, Nat.le_refl _⟩
    · rcases hl1 : lookupSlot m.weak i with _ | dst <;>
        rcases hl2 : lookupSlot m.weak j with _ | src
      · have hh : (step (Op.wCopyAssign i j) m).heap = m.heap := by
          simp [step, if_neg hij, hl1, hl2]
        rw [hh]
        exact ⟨fun v => Or.inl rfl, fun b => Or.inl rfl, Nat.le_refl _, Nat.le_refl _⟩
      · have hh : (step (Op.wCopyAssign i j) m).heap = m.heap := by
          simp [step, if_neg hij, hl1, hl2]
        rw [hh]
        exact ⟨fun v => Or.inl rfl, fun b => Or.inl rfl, Nat.le_refl _, Nat.le_refl _⟩
      · have hh : (step (Op.wCopyAssign i j) m).heap = m.heap := by
          simp [step, if_neg hij, hl1, hl2]
        rw [hh]
        exact ⟨fun v => Or.inl rfl, fun b => Or.inl rfl, Nat.le_refl _, Nat.le_refl _⟩
      · have hh : (step (Op.wCopyAssign i j) m).heap
            = (weakCopy src (weakRelease dst m.heap).2).2 := by
          simp [step, if_neg hij, hl1, hl2]
        rw [hh]
        have hrel := weakRelease_events dst m.heap
        have hcf := weakCopy_frame src (weakRelease dst m.heap).2
        refine ⟨fun v => Or.inl ((congrFun hcf.1 v).trans (hrel.1 v)), ?_, ?_, ?_⟩
        · intro b
          rcases hrel.2.1 b with he | ⟨he, hex⟩
          · exact Or.inl ((congrFun hcf.2.1 b).trans he)
          · exact Or.inr ⟨(congrFun hcf.2.1 b).trans he, hex⟩
        · exact le_of_eq (hcf.2.2.1.trans hrel.2.2.1).symm
        · exact le_of_eq (hcf.2.2.2.trans hrel.2.2.2).symm
  | wMoveAssign i j =>
    by_cases hij : i = j
    · have hh : (step (Op.wMoveAssign i j) m).heap = m.heap := by simp [step, if_pos hij]
      rw [hh]
      exact ⟨fun v => Or.inl rfl, fun b => Or.inl rfl, Nat.le_refl _, Nat.le_refl _⟩
    · rcases hl1 : lookupSlot m.weak i with _ | dst <;>
        rcases hl2 : lookupSlot m.weak j with _ | src
      · have hh : (step (Op.wMoveAssign i j) m).heap = m.heap := by
          simp [step, if_neg hij, hl1, hl2]
        rw [hh]
        exact ⟨fun v => Or.inl rfl, fun b => Or.inl rfl, Nat.le_refl _, Nat.le_refl _⟩
      · have hh : (step (Op.wMoveAssign i j) m).heap = m.heap := by
          simp [step, if_neg hij, hl1, hl2]
        rw [hh]
        exact ⟨fun v => Or.inl rfl, fun b => Or.inl rfl, Nat.le_refl _, Nat.le_refl _⟩
      · have hh : (step (Op.wMoveAssign i j) m).heap = m.heap := by
          simp [step, if_neg hij, hl1, hl2]
        rw [hh]
        exact ⟨fun v => Or.inl rfl, fun b => Or.inl rfl, Nat.le_refl _, Nat.le_refl _⟩
      · have hh : (step (Op.wMoveAssign i j) m).heap = (weakRelease dst m.heap).2 := by
          simp [step, if_neg hij, hl1, hl2]
        rw [hh]
        have hrel := weakRelease_events dst m.heap
        exact ⟨fun v => Or.inl (hrel.1 v), hrel.2.1,
          le_of_eq hrel.2.2.1.symm, le_of_eq hrel.2.2.2.symm⟩
  | wDestroy i =>
    rcases hl : lookupSlot m.weak i with _ | dst
    · have hh : (step (Op.wDestroy i) m).heap = m.heap := by simp [step, hl]
      rw [hh]
      exact ⟨fun v => Or.inl rfl, fun b => Or.inl rfl, Nat.le_refl _, Nat.le_refl _⟩
    · have hh : (step (Op.wDestroy i) m).heap = (weakRelease dst m.heap).2 := by
        simp [step, hl]
      rw [hh]
      have hrel := weakRelease_events dst m.heap
      exact ⟨fun v => Or.inl (hrel.1 v), hrel.2.1,
        le_of_eq hrel.2.2.1.symm, le_of_eq hrel.2.2.2.symm⟩
  | wLock i w =>
    rcases hl1 : lookupSlot m.shared i with _ | hd <;>
      rcases hl2 : lookupSlot m.weak w with _ | wp
    · have hh : (step (Op.wLock i w) m).heap = m.heap := by simp [step, hl1, hl2]
      rw [hh]
      exact ⟨fun v => Or.inl rfl, fun b => Or.inl rfl, Nat.le_refl _, Nat.le_refl _⟩
    · have hh : (step (Op.wLock i w) m).heap = (weakLock wp m.heap).2 := by
        simp [step, hl1, hl2]
      rw [hh]
      have hf := weakLock_frame wp m.heap
      exact ⟨fun v => Or.inl (congrFun hf.1 v), fun b => Or.inl (congrFun hf.2.1 b),
        le_of_eq hf.2.2.1.symm, le_of_eq hf.2.2.2.symm⟩
    · have hh : (step (Op.wLock i w) m).heap = m.heap := by simp [step, hl1, hl2]
      rw [hh]
      exact ⟨fun v => Or.inl rfl, fun b => Or.inl rfl, Nat.le_refl _, Nat.le_refl _⟩
    · have hh : (step (Op.wLock i w) m).heap = m.heap := by simp [step, hl1, hl2]
      rw [hh]
      exact ⟨fun v => Or.inl rfl, fun b => Or.inl rfl, Nat.le_refl _, Nat.le_refl _⟩

/-! ### The strong count governing a value -/

theorem strongOf_eq {m : Machine}
    (hWc : WFc m.heap (m.shared.map Prod.snd) (m.weak.map Prod.snd))
    {b : Nat} {cb : ControlBlock} (hmem : (b, cb) ∈ m.heap.blocks) :
    strongOf m cb.val = cb.shared_count := by
  unfold strongOf
  rcases hfind : m.heap.blocks.find? (fun e => e.2.val == cb.val) with _ | e
  · have hno := List.find?_eq_none.mp hfind (b, cb) hmem
    simp at hno
  · have hemem := List.mem_of_find?_eq_some hfind
    have hpred := List.find?_some hfind
    have hval : e.2.val = cb.val := by simpa using hpred
    have hkey : e.1 = b := hWc.vInj e hemem (b, cb) hmem hval
    have he2 : (b, e.2) ∈ m.heap.blocks := by
      rw [← hkey]
      exact hemem
    have hecb : e.2 = cb := mem_nodup_unique hWc.bNodup he2 hmem
    rw [hfind]
    show e.2.shared_count = cb.shared_count
    rw [hecb]

theorem strongOf_of_dead {m : Machine}
    (hWc : WFc m.heap (m.shared.map Prod.snd) (m.weak.map Prod.snd))
    {v : Nat} (hdead : m.heap.values v = false) : strongOf m v = 0 := by
  unfold strongOf
  rcases hfind : m.heap.blocks.find? (fun e => e.2.val == v) with _ | e
  · rw [hfind]
  · have hemem := List.mem_of_find?_eq_some hfind
    have hval : e.2.val = v := by simpa using List.find?_some hfind
    have hiff := (hWc.bMem e hemem).2.2.2.2.1
    rw [hval, hdead] at hiff
    have hnp : ¬0 < e.2.shared_count := fun hp => Bool.noConfusion (hiff.mpr hp)
    rw [hfind]
    show e.2.shared_count = 0
    exact Nat.eq_zero_of_not_pos hnp

theorem alive_of_strongOf_pos {m : Machine}
    (hWc : WFc m.heap (m.shared.map Prod.snd) (m.weak.map Prod.snd))
    {v : Nat} (hpos : 0 < strongOf m v) : m.heap.values v = true := by
  cases hb : m.heap.values v
  · rw [strongOf_of_dead hWc hb] at hpos
    exact absurd hpos (Nat.lt_irrefl 0)
  · rfl

theorem strongOf_pos_of_alive {m : Machine}
    (hWc : WFc m.heap (m.shared.map Prod.snd) (m.weak.map Prod.snd))
    {v : Nat} (halive : m.heap.values v = true) : 0 < strongOf m v := by
  obtain ⟨e, he, hval, hpos⟩ := hWc.aliveBlock v halive
  have hse : strongOf m e.2.val = e.2.shared_count := strongOf_eq hWc he
  rw [← hval, hse]
  exact hpos

theorem refs_zero_of_dead {m : Machine}
    (hWc : WFc m.heap (m.shared.map Prod.snd) (m.weak.map Prod.snd))
    {b : Nat} (hdead : ∀ cb, (b, cb) ∉ m.heap.blocks) :
    refsS m b = 0 ∧ refsW m b = 0 := by
  constructor
  · refine countS_eq_zero.mpr (fun hd hm hbb => ?_)
    obtain ⟨cb, hcm, -⟩ := (hWc.sOK hd hm).2 b hbb
    exact hdead cb hcm
  · refine countW_eq_zero.mpr (fun w hm hbb => ?_)
    obtain ⟨cb, hcm, -⟩ := hWc.wOK w hm b hbb
    exact hdead cb hcm

/-- C1: For every sequence of handle operations (in particular every sequence
of Owning Handle construction, copy, move, Reset and destruction events), each
owned value is destroyed at most once, never while its strong count is
positive, and a step destroys it exactly when that step is the release taking
its control block's `strong_count` from 1 to 0. -/
theorem C1_value_destroyed_once (ops : List Op) (o : Op) (v : Nat) :
    ((run (ops ++ [o])).heap.valueFrees v = (run ops).heap.valueFrees v + 1 ↔
      (strongOf (run ops) v = 1 ∧ strongOf (run (ops ++ [o])) v = 0)) ∧
    (run ops).heap.valueFrees v ≤ 1 ∧
    (0 < strongOf (run ops) v → (run ops).heap.valueFrees v = 0) := by
  obtain ⟨hWc, hns, hnw⟩ := WF_run ops
  have hW2 := WF_run (ops ++ [o])
  rw [run_append] at hW2
  obtain ⟨hWc2, hns2, hnw2⟩ := hW2
  have hstep := step_events o (run ops) (WF_run ops)
  rw [run_append]
  refine ⟨⟨?_, ?_⟩, hWc.vOnce v, ?_⟩
  · intro hbump
    rcases hstep.1 v with heq | ⟨heq, b, cb, hmem, hval, hs1⟩
    · rw [heq] at hbump
      exact absurd hbump.symm (Nat.succ_ne_self _)
    · constructor
      · have hso := strongOf_eq hWc hmem
        rw [hval] at hso
        rw [hso, hs1]
      · have hne0 : (step o (run ops)).heap.valueFrees v ≠ 0 := by
          rw [heq]
          exact Nat.succ_ne_zero _
        have hlt2 : v < (step o (run ops)).heap.nextValue := by
          by_contra hge
          exact hne0 (hWc2.vFresh v (Nat.le_of_not_lt hge)).2
        have hdead : (step o (run ops)).heap.values v = false := by
          cases hb2 : (step o (run ops)).heap.values v
          · rfl
          · exact absurd ((hWc2.aliveIff v hlt2).mp hb2) hne0
        exact strongOf_of_dead hWc2 hdead
  · rintro ⟨h1, h0⟩
    have halive := alive_of_strongOf_pos hWc (by rw [h1]; exact Nat.one_pos)
    have hvlt := hWc.aliveLt v halive
    have hfree0 := (hWc.aliveIff v hvlt).mp halive
    have hdead : (step o (run ops)).heap.values v = false := by
      cases hb2 : (step o (run ops)).heap.values v
      · rfl
      · have := strongOf_pos_of_alive hWc2 hb2
        rw [h0] at this
        exact absurd this (Nat.lt_irrefl 0)
    have hlt2 : v < (step o (run ops)).heap.nextValue :=
      Nat.lt_of_lt_of_le hvlt hstep.2.2.1
    have hne0 : (step o (run ops)).heap.valueFrees v ≠ 0 :=
      fun hz => Bool.noConfusion (hdead ▸ (hWc2.aliveIff v hlt2).mpr hz)
    rcases hstep.1 v with heq | ⟨heq, -⟩
    · exact absurd (heq.trans hfree0) hne0
    · exact heq
  · intro hpos
    have halive := alive_of_strongOf_pos hWc hpos
    exact (hWc.aliveIff v (hWc.aliveLt v halive)).mp halive

/-- C2: For every sequence of handle operations, each Control Structure is
destroyed at most once, never while it is still allocated, and a step destroys
it exactly when, the step done, no owning and no observer handle references it
any more — i.e. when its two counters have both reached zero, the joint check
performed identically by the owning and the observing release paths. -/
theorem C2_block_destroyed_once (ops : List Op) (o : Op) (b : Nat) :
    ((run (ops ++ [o])).heap.blockFrees b = (run ops).heap.blockFrees b + 1 ↔
      ((∃ cb, getBlock (run ops).heap b = some cb) ∧
        refsS (run (ops ++ [o])) b = 0 ∧ refsW (run (ops ++ [o])) b = 0)) ∧
    (run ops).heap.blockFrees b ≤ 1 ∧
    (∀ cb, getBlock (run ops).heap b = some cb →
      (run ops).heap.blockFrees b = 0 ∧
      cb.shared_count = refsS (run ops) b ∧ cb.weak_count = refsW (run ops) b) := by
  obtain ⟨hWc, hns, hnw⟩ := WF_run ops
  have hW2 := WF_run (ops ++ [o])
  rw [run_append] at hW2
  obtain ⟨hWc2, hns2, hnw2⟩ := hW2
  have hstep := step_events o (run ops) (WF_run ops)
  rw [run_append]
  refine ⟨⟨?_, ?_⟩, hWc.bOnce b, ?_⟩
  · intro hbump
    rcases hstep.2.1 b with heq | ⟨heq, cb, hmem⟩
    · rw [heq] at hbump
      exact absurd hbump.symm (Nat.succ_ne_self _)
    · refine ⟨⟨cb, getBlock_of_mem hWc.bNodup hmem⟩, ?_⟩
      have hne0 : (step o (run ops)).heap.blockFrees b ≠ 0 := by
        rw [heq]
        exact Nat.succ_ne_zero _
      have hblt : b < (run ops).heap.nextBlock := (hWc.bMem (b, cb) hmem).1
      have hblt2 : b < (step o (run ops)).heap.nextBlock :=
        Nat.lt_of_lt_of_le hblt hstep.2.2.2
      have hdead : ∀ cb2, (b, cb2) ∉ (step o (run ops)).heap.blocks := by
        intro cb2 hmem2
        exact hne0 ((hWc2.bLiveIff b hblt2).mp ⟨cb2, hmem2⟩)
      exact refs_zero_of_dead hWc2 hdead
  · rintro ⟨⟨cb, hget⟩, hrs, hrw⟩
    have hmem := getBlock_mem hget
    have hblt : b < (run ops).heap.nextBlock := (hWc.bMem (b, cb) hmem).1
    have hfb0 : (run ops).heap.blockFrees b = 0 :=
      (hWc.bLiveIff b hblt).mp ⟨cb, hmem⟩
    rcases hstep.2.1 b with heq | ⟨heq, -⟩
    · exfalso
      have hblt2 : b < (step o (run ops)).heap.nextBlock :=
        Nat.lt_of_lt_of_le hblt hstep.2.2.2
      obtain ⟨cb2, hmem2⟩ := (hWc2.bLiveIff b hblt2).mpr (heq.trans hfb0)
      obtain ⟨-, -, hsc2, hwc2x, -, hnz2⟩ := hWc2.bMem (b, cb2) hmem2
      dsimp only at hsc2 hwc2x hnz2
      have hrs2 : countS ((step o (run ops)).shared.map Prod.snd) b = 0 := hrs
      have hrw2 : countW ((step o (run ops)).weak.map Prod.snd) b = 0 := hrw
      rw [hrs2] at hsc2
      rw [hrw2] at hwc2x
      rw [hsc2, hwc2x] at hnz2
      exact absurd hnz2 (Nat.lt_irrefl 0)
    · exact heq
  · intro cb hget
    have hmem := getBlock_mem hget
    obtain ⟨hblt, -, hsc, hwcx, -, -⟩ := hWc.bMem (b, cb) hmem
    dsimp only at hsc hwcx
    exact ⟨(hWc.bLiveIff b hblt).mp ⟨cb, hmem⟩, hsc, hwcx⟩

theorem sharedRelease_getBlock_frame (hd : SharedPtr) (h : Heap) {b : Nat}
    (hne : hd.block ≠ some b) : getBlock (sharedRelease hd h).2 b = getBlock h b := by
  rcases hbc : hd.block with _ | b2
  · simp [sharedRelease, hbc]
  · have hbne : b ≠ b2 := fun hh => hne (by rw [hbc, hh])
    rcases hget : getBlock h b2 with _ | cb
    · simp [sharedRelease, hbc, hget]
    · simp only [sharedRelease, hbc, hget]
      by_cases hz : cb.shared_count - 1 = 0
      · rw [if_pos hz]
        by_cases hw : cb.weak_count = 0
        · rw [if_pos hw]
          have hb1 : getBlock (freeBlock (freeValue
              (setBlock h b2 { cb with shared_count := cb.shared_count - 1 }) hd.ptr) b2) b
              = getBlock h b := by
            simp only [getBlock, freeBlock_blocks, freeValue_blocks, setBlock_blocks]
            rw [lookupSlot_eraseSlot_ne hbne, lookupSlot_setSlot_ne hbne]
          exact hb1
        · rw [if_neg hw]
          have hb1 : getBlock (freeValue
              (setBlock h b2 { cb with shared_count := cb.shared_count - 1 }) hd.ptr) b
              = getBlock h b := by
            simp only [getBlock, freeValue_blocks, setBlock_blocks]
            rw [lookupSlot_setSlot_ne hbne]
          exact hb1
      · rw [if_neg hz]
        show lookupSlot (setSlot h.blocks b2 _) b = lookupSlot h.blocks b
        rw [lookupSlot_setSlot_ne hbne]

/-- C3: `Lock()` on an Observer Handle: when the control block exists and its
strong count is positive, it returns a new Owning Handle sharing the observer's
value pointer and block, and its only effect is to increment that block's
strong count by exactly one; when the block reference is null, or the strong
count is zero, it returns an empty Owning Handle and the heap is completely
unchanged.  In every case the values, the value delete counters, and the block
delete counters are untouched. -/
theorem C3_lock_upgrade (h : Heap) (w : WeakPtr) :
    (∀ b cb, w.block = some b → getBlock h b = some cb → 0 < cb.shared_count →
      weakLock w h = ({ ptr := w.ptr, block := w.block },
        setBlock h b { cb with shared_count := cb.shared_count + 1 })) ∧
    (w.block = none → weakLock w h = ({ ptr := none, block := none }, h)) ∧
    (∀ b cb, w.block = some b → getBlock h b = some cb → cb.shared_count = 0 →
      weakLock w h = ({ ptr := none, block := none }, h)) ∧
    ((weakLock w h).2.values = h.values ∧
      (weakLock w h).2.valueFrees = h.valueFrees ∧
      (weakLock w h).2.blockFrees = h.blockFrees) := by
  refine ⟨?_, ?_, ?_, ?_, (weakLock_frame w h).1, (weakLock_frame w h).2.1⟩
  · intro b cb hbc hget hpos
    simp [weakLock, sharedFromWeak, hbc, hget, hpos]
  · intro hbc
    simp [weakLock, hbc]
  · intro b cb hbc hget hz
    simp [weakLock, hbc, hget, hz]
  · rcases hbc : w.block with _ | b
    · simp [weakLock, hbc]
    · rcases hget : getBlock h b with _ | cb
      · simp [weakLock, hbc, hget]
      · by_cases hpos : 0 < cb.shared_count <;>
          simp [weakLock, sharedFromWeak, hbc, hget, hpos]

/-- C3 witness: locking a live observer of the single freshly constructed
value yields an owning handle of that value and bumps the strong count
from 1 to 2. -/
theorem C3_witness :
    weakLock { block := some 0, ptr := some 0 } (run [Op.sNewRaw 0]).heap
      = ({ ptr := some 0, block := some 0 },
        setBlock (run [Op.sNewRaw 0]).heap 0
          { shared_count := 1 + 1, weak_count := 0, val := 0 }) :=
  (C3_lock_upgrade (run [Op.sNewRaw 0]).heap { block := some 0, ptr := some 0 }).1
    0 { shared_count := 1, weak_count := 0, val := 0 } rfl (by decide) (by decide)

/-- C4: `IsExpired()` returns true when the control block reference is null,
and otherwise returns true exactly when the block's strong count is zero; it
is a pure query (its type returns only the Boolean).  On every reachable heap
the strong count equals the number of owning handles, so the call returns
false exactly while at least one Owning Handle shares the block. -/
theorem C4_isExpired (h : Heap) (w : WeakPtr) :
    (w.block = none → weakIsExpired w h = true) ∧
    (∀ b cb, w.block = some b → getBlock h b = some cb →
      (weakIsExpired w h = true ↔ cb.shared_count = 0)) ∧
    (∀ ops b cb, w.block = some b → getBlock (run ops).heap b = some cb →
      (weakIsExpired w (run ops).heap = false ↔ 0 < refsS (run ops) b)) := by
  refine ⟨?_, ?_, ?_⟩
  · intro hbc
    simp [weakIsExpired, hbc]
  · intro b cb hbc hget
    simp [weakIsExpired, hbc, hget]
  · intro ops b cb hbc hget
    obtain ⟨hWc, -, -⟩ := WF_run ops
    have hsc := (hWc.bMem (b, cb) (getBlock_mem hget)).2.2.1
    dsimp only at hsc
    have hsc2 : cb.shared_count = refsS (run ops) b := hsc
    simp only [weakIsExpired, hbc, hget]
    rw [← hsc2]
    constructor
    · intro hne
      have : ¬cb.shared_count = 0 := by simpa using hne
      exact Nat.pos_of_ne_zero this
    · intro hpos
      simpa using Nat.pos_iff_ne_zero.mp hpos

/-- C4 witness: after the only owning handle is destroyed, the observer of the
surviving control block reports expiry; before that it reported liveness. -/
theorem C4_witness :
    weakIsExpired { block := some 0, ptr := some 0 }
        (run [Op.sNewRaw 0, Op.wFromShared 0 0, Op.sDestroy 0]).heap = true ∧
    weakIsExpired { block := some 0, ptr := some 0 }
        (run [Op.sNewRaw 0, Op.wFromShared 0 0]).heap = false :=
  ⟨((C4_isExpired (run [Op.sNewRaw 0, Op.wFromShared 0 0, Op.sDestroy 0]).heap
      { block := some 0, ptr := some 0 }).2.1
      0 { shared_count := 0, weak_count := 1, val := 0 } rfl (by decide)).mpr (by decide),
   by
    have hiff := (C4_isExpired (run [Op.sNewRaw 0, Op.wFromShared 0 0]).heap
      { block := some 0, ptr := some 0 }).2.2
      [Op.sNewRaw 0, Op.wFromShared 0 0]
      0 { shared_count := 1, weak_count := 1, val := 0 } rfl (by decide)
    exact hiff.mpr (by decide)⟩

/-- C5: constructing an Owning Handle from a raw pointer: a null pointer
yields an empty handle and leaves the heap untouched (no control block is
allocated); a non-null pointer allocates a fresh control block whose strong
count is 1 and whose weak count is 0, owned together with the value. -/
theorem C5_construct_from_raw (h : Heap) :
    (sharedFromRaw none h = ({ ptr := none, block := none }, h)) ∧
    (∀ v, sharedFromRaw (some v) h
      = ({ ptr := some v, block := some h.nextBlock },
        { h with
          blocks := (h.nextBlock,
            { shared_count := 1, weak_count := 0, val := v }) :: h.blocks
          nextBlock := h.nextBlock + 1 })) ∧
    (∀ v, getBlock (sharedFromRaw (some v) h).2 h.nextBlock
      = some { shared_count := 1, weak_count := 0, val := v }) := by
  refine ⟨rfl, fun v => rfl, fun v => ?_⟩
  show lookupSlot ((h.nextBlock, _) :: h.blocks) h.nextBlock = _
  rw [lookupSlot]
  rw [if_pos rfl]

/-- C6: `Reset` first releases the current ownership exactly per the release
rule — decrement the strong count; when it reaches zero destroy the value, and
additionally destroy the control block when the weak count is zero — and then
either becomes empty (null argument) or adopts the new pointer under a freshly
allocated control block with strong count 1. -/
theorem C6_reset (h : Heap) (hd : SharedPtr) :
    (sharedReset hd none h = ({ ptr := none, block := none }, (sharedRelease hd h).2)) ∧
    (∀ v, sharedReset hd (some v) h
      = ({ ptr := some v, block := some (sharedRelease hd h).2.nextBlock },
        (allocBlock (sharedRelease hd h).2
          { shared_count := 1, weak_count := 0, val := v }).2)) ∧
    (hd.block = none → (sharedRelease hd h).2 = h) ∧
    (∀ b cb, hd.block = some b → getBlock h b = some cb →
      (1 < cb.shared_count →
        (sharedRelease hd h).2
          = setBlock h b { cb with shared_count := cb.shared_count - 1 } ∧
        (sharedRelease hd h).2.values = h.values ∧
        (sharedRelease hd h).2.valueFrees = h.valueFrees ∧
        (sharedRelease hd h).2.blockFrees = h.blockFrees) ∧
      (cb.shared_count = 1 →
        (∀ v, hd.ptr = some v →
          (sharedRelease hd h).2.values v = false ∧
          (sharedRelease hd h).2.valueFrees v = h.valueFrees v + 1) ∧
        (cb.weak_count = 0 →
          getBlock (sharedRelease hd h).2 b = none ∧
          (sharedRelease hd h).2.blockFrees b = h.blockFrees b + 1) ∧
        (0 < cb.weak_count →
          getBlock (sharedRelease hd h).2 b
            = some { shared_count := 0, weak_count := cb.weak_count, val := cb.val } ∧
          (sharedRelease hd h).2.blockFrees = h.blockFrees))) := by
  refine ⟨rfl, fun v => rfl, ?_, ?_⟩
  · intro hbc
    simp [sharedRelease, hbc]
  · intro b cb hbc hget
    constructor
    · intro hgt
      have hz : ¬cb.shared_count - 1 = 0 := by
        have h1 : 1 ≤ cb.shared_count - 1 := Nat.le_sub_one_of_lt hgt
        exact fun hh => absurd (hh ▸ h1) (by simp)
      simp only [sharedRelease, hbc, hget]
      rw [if_neg hz]
      exact ⟨rfl, rfl, rfl, rfl⟩
    · intro hs1
      have hz : cb.shared_count - 1 = 0 := by rw [hs1]
      simp only [sharedRelease, hbc, hget]
      rw [if_pos hz]
      by_cases hw : cb.weak_count = 0
      · rw [if_pos hw]
        refine ⟨?_, ?_, ?_⟩
        · intro v hp
          rw [hp]
          constructor
          · show (freeValue (setBlock h b _) (some v)).values v = false
            rw [freeValue_values_some, if_pos rfl]
          · show (freeValue (setBlock h b _) (some v)).valueFrees v = h.valueFrees v + 1
            rw [freeValue_valueFrees_some, if_pos rfl, setBlock_valueFrees]
        · intro _
          constructor
          · have hb1 : getBlock (freeBlock (freeValue
                (setBlock h b { cb with shared_count := cb.shared_count - 1 }) hd.ptr) b) b
                = none := by
              simp only [getBlock, freeBlock_blocks, freeValue_blocks, setBlock_blocks]
              rw [eraseSlot_setSlot_self]
              exact lookupSlot_eraseSlot_self h.blocks b
            exact hb1
          · have hb2 : (freeBlock (freeValue
                (setBlock h b { cb with shared_count := cb.shared_count - 1 }) hd.ptr)
                b).blockFrees b = h.blockFrees b + 1 := by
              rw [freeBlock_blockFrees, if_pos rfl, freeValue_blockFrees, setBlock_blockFrees]
            exact hb2
        · intro hwpos
          exact absurd hw (by rw [hw] at hwpos ⊢; exact absurd hwpos (Nat.lt_irrefl 0))
      · rw [if_neg hw]
        refine ⟨?_, ?_, ?_⟩
        · intro v hp
          rw [hp]
          constructor
          · show (freeValue (setBlock h b _) (some v)).values v = false
            rw [freeValue_values_some, if_pos rfl]
          · show (freeValue (setBlock h b _) (some v)).valueFrees v = h.valueFrees v + 1
            rw [freeValue_valueFrees_some, if_pos rfl, setBlock_valueFrees]
        · intro hw0
          exact absurd hw0 hw
        · intro _
          constructor
          · have hb1 : getBlock (freeValue
                (setBlock h b { cb with shared_count := cb.shared_count - 1 }) hd.ptr) b
                = some { shared_count := 0, weak_count := cb.weak_count, val := cb.val } := by
              simp only [getBlock, freeValue_blocks, setBlock_blocks]
              rw [lookupSlot_setSlot_self, hs1]
            exact hb1
          · have hb2 : (freeValue
                (setBlock h b { cb with shared_count := cb.shared_count - 1 })
                hd.ptr).blockFrees = h.blockFrees := by
              rw [freeValue_blockFrees, setBlock_blockFrees]
            exact hb2

/-- C6 witness: resetting the single owner of a fresh value destroys the value
and its control block and leaves the handle empty. -/
theorem C6_witness :
    getBlock (sharedRelease { ptr := some 0, block := some 0 }
      (run [Op.sNewRaw 0]).heap).2 0 = none ∧
    sharedReset { ptr := some 0, block := some 0 } none (run [Op.sNewRaw 0]).heap
      = ({ ptr := none, block := none },
        (sharedRelease { ptr := some 0, block := some 0 } (run [Op.sNewRaw 0]).heap).2) :=
  ⟨((((C6_reset (run [Op.sNewRaw 0]).heap { ptr := some 0, block := some 0 }).2.2.2
      0 { shared_count := 1, weak_count := 0, val := 0 } rfl (by decide)).2
      (by decide)).2.1 (by decide)).1,
   (C6_reset (run [Op.sNewRaw 0]).heap { ptr := some 0, block := some 0 }).1⟩

/-- C7 counterexample: move-assigning one non-empty owning handle onto another
non-empty owning handle does change counters: the destination's previous
control block (block 0, strong count 1 beforehand) is released, so its strong
count drops 1 to 0, the value is destroyed and the block itself is freed.
The source is left empty and the handles' fields transfer, but the claim's
"without changing strong_count or weak_count" fails for the destination's
prior block. -/
theorem C7_counterexample :
    getBlock (run [Op.sNewRaw 0, Op.sNewRaw 1]).heap 0
      = some { shared_count := 1, weak_count := 0, val := 0 } ∧
    lookupSlot (run [Op.sNewRaw 0, Op.sNewRaw 1, Op.sMoveAssign 0 1]).shared 1
      = some { ptr := none, block := none } ∧
    lookupSlot (run [Op.sNewRaw 0, Op.sNewRaw 1, Op.sMoveAssign 0 1]).shared 0
      = some { ptr := some 1, block := some 1 } ∧
    getBlock (run [Op.sNewRaw 0, Op.sNewRaw 1, Op.sMoveAssign 0 1]).heap 0 = none ∧
    (run [Op.sNewRaw 0, Op.sNewRaw 1, Op.sMoveAssign 0 1]).heap.blockFrees 0 = 1 ∧
    (run [Op.sNewRaw 0, Op.sNewRaw 1, Op.sMoveAssign 0 1]).heap.valueFrees 0 = 1 := by
  decide

/-- C7 (amended): move construction is a pure field transfer — the heap (hence
every counter) is untouched, the destination receives the source's value and
block references, and the source becomes empty.  Move assignment transfers the
fields the same way and leaves the source empty, but in addition it releases
the destination's previous reference: the resulting heap is exactly
`sharedRelease dst` of the old heap, which is the identity when the
destination was empty and touches no block other than the destination's
former one.  After any move the source is empty, so destroying it decrements
no counter (releasing an empty handle is a heap no-op). -/
theorem C7_move_transfers (m : Machine) (i j : Nat) :
    (∀ src, lookupSlot m.shared i = none → lookupSlot m.shared j = some src →
      (step (Op.sMove i j) m).heap = m.heap ∧
      lookupSlot (step (Op.sMove i j) m).shared i
        = some { ptr := src.ptr, block := src.block } ∧
      lookupSlot (step (Op.sMove i j) m).shared j
        = some { ptr := none, block := none }) ∧
    (∀ dst src, i ≠ j → lookupSlot m.shared i = some dst →
      lookupSlot m.shared j = some src →
      (step (Op.sMoveAssign i j) m).heap = (sharedRelease dst m.heap).2 ∧
      (dst.block = none → (step (Op.sMoveAssign i j) m).heap = m.heap) ∧
      (∀ b, dst.block ≠ some b →
        getBlock (step (Op.sMoveAssign i j) m).heap b = getBlock m.heap b) ∧
      lookupSlot (step (Op.sMoveAssign i j) m).shared i
        = some { ptr := src.ptr, block := src.block } ∧
      lookupSlot (step (Op.sMoveAssign i j) m).shared j
        = some { ptr := none, block := none }) ∧
    (∀ h2 : Heap, sharedRelease { ptr := none, block := none } h2
      = ({ ptr := none, block := none }, h2)) := by
  refine ⟨?_, ?_, fun h2 => rfl⟩
  · intro src hli hlj
    have hji : j ≠ i := by
      intro hh
      rw [hh, hli] at hlj
      cases hlj
    have hsh : (step (Op.sMove i j) m).shared
        = setSlot (setSlot m.shared j { ptr := none, block := none }) i
            { ptr := src.ptr, block := src.block } := by
      simp [step, hli, hlj, sharedMoveFields]
    have hhp : (step (Op.sMove i j) m).heap = m.heap := by
      simp [step, hli, hlj]
    refine ⟨hhp, ?_, ?_⟩
    · rw [hsh, lookupSlot_setSlot_self]
    · rw [hsh, lookupSlot_setSlot_ne hji, lookupSlot_setSlot_self]
  · intro dst src hij hli hlj
    have hji : j ≠ i := fun hh => hij hh.symm
    have hsh : (step (Op.sMoveAssign i j) m).shared
        = setSlot (setSlot m.shared j { ptr := none, block := none }) i
            { ptr := src.ptr, block := src.block } := by
      simp [step, if_neg hij, hli, hlj]
    have hhp : (step (Op.sMoveAssign i j) m).heap = (sharedRelease dst m.heap).2 := by
      simp [step, if_neg hij, hli, hlj]
    refine ⟨hhp, ?_, ?_, ?_, ?_⟩
    · intro hdb
      rw [hhp]
      simp [sharedRelease, hdb]
    · intro b hb
      rw [hhp]
      exact sharedRelease_getBlock_frame dst m.heap hb
    · rw [hsh, lookupSlot_setSlot_self]
    · rw [hsh, lookupSlot_setSlot_ne hji, lookupSlot_setSlot_self]

/-- C7 witness: concrete move assignment between two live owning handles —
the heap is the release of the destination's old reference, the source slot
is left empty, and the destination slot holds the transferred fields. -/
theorem C7_witness :
    (step (Op.sMoveAssign 0 1) (run [Op.sNewRaw 0, Op.sNewRaw 1])).heap
      = (sharedRelease { ptr := some 0, block := some 0 }
          (run [Op.sNewRaw 0, Op.sNewRaw 1]).heap).2 ∧
    lookupSlot (step (Op.sMoveAssign 0 1) (run [Op.sNewRaw 0, Op.sNewRaw 1])).shared 1
      = some { ptr := none, block := none } := by
  have hh := (C7_move_transfers (run [Op.sNewRaw 0, Op.sNewRaw 1]) 0 1).2.1
    { ptr := some 0, block := some 0 } { ptr := some 1, block := some 1 }
    (by decide) (by decide) (by decide)
  exact ⟨hh.1, hh.2.2.2.2⟩

/-- C8: self-assignment — copy- or move-assigning a slot onto itself, for
either handle kind — leaves the entire machine unchanged: the handle's fields,
every control block (both counters), every value and all the delete counters
are exactly as before, so nothing is destroyed. -/
theorem C8_selfAssign (m : Machine) (i : Nat) :
    step (Op.sCopyAssign i i) m = m ∧ step (Op.sMoveAssign i i) m = m ∧
    step (Op.wCopyAssign i i) m = m ∧ step (Op.wMoveAssign i i) m = m := by
  refine ⟨?_, ?_, ?_, ?_⟩ <;> simp [step]

/-- C9: an observer handle constructed from a raw pointer stores the pointer
but never attaches to a control block (its block reference is null and the
heap — hence every counter — is untouched, for every raw pointer, null or
not); for such a handle `IsExpired` always returns true and `Lock` always
returns an empty owning handle without touching the heap. -/
theorem C9_weakFromRaw (h h2 : Heap) (p : Option Nat) :
    weakFromRaw p h = ({ block := none, ptr := p }, h) ∧
    weakIsExpired (weakFromRaw p h).1 h2 = true ∧
    weakLock (weakFromRaw p h).1 h2 = ({ ptr := none, block := none }, h2) := by
  exact ⟨rfl, rfl, rfl⟩

/-- C10 counterexample: copy-assigning from an empty owning handle onto a
non-empty one does change a counter: the destination's old control block
(block 0, strong count 1) is released, its strong count drops to 0, and the
block is freed — refuting "changes no counter of any Control Structure". -/
theorem C10_counterexample :
    lookupSlot (run [Op.sNewRaw 0, Op.sNewNull 1]).shared 1
      = some { ptr := none, block := none } ∧
    getBlock (run [Op.sNewRaw 0, Op.sNewNull 1]).heap 0
      = some { shared_count := 1, weak_count := 0, val := 0 } ∧
    getBlock (run [Op.sNewRaw 0, Op.sNewNull 1, Op.sCopyAssign 0 1]).heap 0 = none ∧
    (run [Op.sNewRaw 0, Op.sNewNull 1, Op.sCopyAssign 0 1]).heap.blockFrees 0 = 1 ∧
    lookupSlot (run [Op.sNewRaw 0, Op.sNewNull 1, Op.sCopyAssign 0 1]).shared 0
      = some { ptr := none, block := none } := by
  decide

/-- C10 (amended): copy construction from an empty handle (either kind) yields
an empty destination and leaves the heap — hence every counter — untouched;
the increment happens only when the source's block reference is non-null.
Copy assignment from an empty source likewise performs no increment, but it
first releases the destination's previous reference: the resulting heap is
`sharedRelease dst` (resp. `weakRelease dst`) of the old heap, which is the
identity exactly when the destination was also empty. -/
theorem C10_copy_from_empty (h : Heap) (m : Machine) (i j : Nat) :
    (∀ src : SharedPtr, src.block = none →
      sharedCopy src h = ({ ptr := src.ptr, block := none }, h)) ∧
    (∀ src : WeakPtr, src.block = none →
      weakCopy src h = ({ block := none, ptr := src.ptr }, h)) ∧
    (∀ dst src, i ≠ j → lookupSlot m.shared i = some dst →
      lookupSlot m.shared j = some src → src.block = none →
      (step (Op.sCopyAssign i j) m).heap = (sharedRelease dst m.heap).2 ∧
      lookupSlot (step (Op.sCopyAssign i j) m).shared i
        = some { ptr := src.ptr, block := none } ∧
      (dst.block = none → step (Op.sCopyAssign i j) m
        = { m with shared := setSlot m.shared i { ptr := src.ptr, block := none } })) ∧
    (∀ dst src, i ≠ j → lookupSlot m.weak i = some dst →
      lookupSlot m.weak j = some src → src.block = none →
      (step (Op.wCopyAssign i j) m).heap = (weakRelease dst m.heap).2 ∧
      lookupSlot (step (Op.wCopyAssign i j) m).weak i
        = some { block := none, ptr := src.ptr }) := by
  refine ⟨?_, ?_, ?_, ?_⟩
  · intro src hb
    simp [sharedCopy, hb]
  · intro src hb
    simp [weakCopy, hb]
  · intro dst src hij hli hlj hsb
    have hsh : step (Op.sCopyAssign i j) m
        = { m with
            heap := (sharedRelease dst m.heap).2
            shared := setSlot m.shared i { ptr := src.ptr, block := none } } := by
      simp [step, if_neg hij, hli, hlj, sharedCopy, hsb]
    refine ⟨by rw [hsh], by rw [hsh]; exact lookupSlot_setSlot_self m.shared i _, ?_⟩
    intro hdb
    rw [hsh]
    have hrel : (sharedRelease dst m.heap).2 = m.heap := by
      simp [sharedRelease, hdb]
    rw [hrel]
  · intro dst src hij hli hlj hsb
    have hsh : step (Op.wCopyAssign i j) m
        = { m with
            heap := (weakRelease dst m.heap).2
            weak := setSlot m.weak i { block := none, ptr := src.ptr } } := by
      simp [step, if_neg hij, hli, hlj, weakCopy, hsb]
    exact ⟨by rw [hsh], by rw [hsh]; exact lookupSlot_setSlot_self m.weak i _⟩

/-- C10 witness: concrete copy assignment from an empty owning handle onto
the single live owner — the destination ends up empty and the heap is the
release of its old reference. -/
theorem C10_witness :
    sharedCopy { ptr := none, block := none } (run [Op.sNewRaw 0]).heap
      = ({ ptr := none, block := none }, (run [Op.sNewRaw 0]).heap) ∧
    (step (Op.sCopyAssign 0 1) (run [Op.sNewRaw 0, Op.sNewNull 1])).heap
      = (sharedRelease { ptr := some 0, block := some 0 }
          (run [Op.sNewRaw 0, Op.sNewNull 1]).heap).2 := by
  refine ⟨(C10_copy_from_empty (run [Op.sNewRaw 0]).heap initMachine 0 1).1
    { ptr := none, block := none } rfl, ?_⟩
  exact ((C10_copy_from_empty (run [Op.sNewRaw 0]).heap
    (run [Op.sNewRaw 0, Op.sNewNull 1]) 0 1).2.2.1
    { ptr := some 0, block := some 0 } { ptr := none, block := none }
    (by decide) (by decide) (by decide) rfl).1

/-- C1 witness: a concrete run — construct one owning handle, then destroy
it — in which the strong count goes 1 to 0 and the value delete counter is
bumped exactly at that step. -/
theorem C1_witness :
    (run ([Op.sNewRaw 0] ++ [Op.sDestroy 0])).heap.valueFrees 0
      = (run [Op.sNewRaw 0]).heap.valueFrees 0 + 1 :=
  (C1_value_destroyed_once [Op.sNewRaw 0] (Op.sDestroy 0) 0).1.mpr
    ⟨by decide, by decide⟩

/-- C2 witness: in the same concrete run the control block delete counter is
bumped exactly at the step where both reference counts are zero. -/
theorem C2_witness :
    (run ([Op.sNewRaw 0] ++ [Op.sDestroy 0])).heap.blockFrees 0
      = (run [Op.sNewRaw 0]).heap.blockFrees 0 + 1 :=
  (C2_block_destroyed_once [Op.sNewRaw 0] (Op.sDestroy 0) 0).1.mpr
    ⟨⟨{ shared_count := 1, weak_count := 0, val := 0 }, by decide⟩, by decide, by decide⟩
